import Mathlib

/-!
# rdns-root-domain-tools: the wildcard-record migration of `main.go`

A shallow embedding of `appMain` (src/main.go, lines 92-207) and of the
library calls it relies on.

* Go strings are modelled by Lean strings; the separators involved
  (`\052.`, `.`) are ASCII, so splitting by bytes and by characters agree.
* The `record_a` table is a list of `DBRecord` rows in storage order; the
  store compares `fqdn` by string equality, a failed statement leaves the
  table as it was, and nothing else writes to the table during a run.
* The rows of the `SELECT ... like ?` are those of the table at the start of
  the run (`appMain_selectLike` shows that the rows the run inserts are never
  selected by the pattern).
* Every fallible call is given a fault site; an environment `Env` decides
  which sites fail, what the provider lists, and which values the store gives
  to the columns the INSERT leaves out (`id`, `updated_on`).
* `rows.Next()` may fail too; the code never consults `rows.Err()`, so such a
  failure ends the loop like the end of the rows.
* A run returns the final table, the trace of the calls issued in the loop
  body (each with the row position and the error it returned), and the
  outcome.
-/

set_option autoImplicit false

/-! ## Library functions of package `strings` -/

namespace strings

/-- Go `strings.Index`: position of the first occurrence of `substr` in `s`;
`none` stands for the result `-1`. -/
def Index : List Char → List Char → Option Nat
  | [], substr => if substr.isPrefixOf [] then some 0 else none
  | c :: cs, substr =>
    if substr.isPrefixOf (c :: cs) then some 0 else (Index cs substr).map (· + 1)

/-- The loop of Go `strings.Count` for a non-empty `substr`: count
non-overlapping occurrences, restarting after each one. The loop consumes at
least one character per round, `fuel` bounds the number of rounds. -/
def countLoop (substr : List Char) : Nat → List Char → Nat
  | 0, _ => 0
  | fuel + 1, s =>
    match Index s substr with
    | none => 0
    | some i => 1 + countLoop substr fuel (s.drop (i + substr.length))

/-- Go `strings.Count`. -/
def Count (s substr : List Char) : Nat :=
  if substr.length = 0 then s.length + 1 else countLoop substr (s.length + 1) s

/-- The loop `for i < n` of Go `strings.genSplit`, with `n - i` rounds left. -/
def splitLoop (sep : List Char) : Nat → List Char → List (List Char)
  | 0, s => [s]
  | n + 1, s =>
    match Index s sep with
    | none => [s]
    | some m => s.take m :: splitLoop sep n (s.drop (m + sep.length))

/-- Go `strings.genSplit(s, sep, 0, -1)`. -/
def genSplit (s sep : List Char) : List (List Char) :=
  if sep.length = 0 then s.map (fun c => [c])
  else
    let n := Count s sep + 1
    let n := if n > s.length + 1 then s.length + 1 else n
    splitLoop sep (n - 1) s

/-- Go `strings.Split`. -/
def Split (s sep : String) : List String :=
  (genSplit s.data sep.data).map String.mk

/-- Go `strings.HasSuffix`. -/
def HasSuffix (s suffix : String) : Bool :=
  suffix.data.isSuffixOf s.data

/-- Go `strings.TrimSuffix`. -/
def TrimSuffix (s suffix : String) : String :=
  if HasSuffix s suffix then String.mk (s.data.take (s.data.length - suffix.data.length)) else s

end strings

/-! ## Data model -/

/-- Errors returned by the database and the provider: the sentinel
`sql.ErrNoRows`, and every other error, told apart by a code. -/
inductive GoError where
  | ErrNoRows
  | failure (code : Nat)
  deriving DecidableEq

/-- The struct `DBRecord` of main.go, a row of table `record_a` (`Type_` is the
field `Type`, a reserved word here). -/
structure DBRecord where
  ID : Int
  Fqdn : String
  Type_ : Int
  Content : String
  CreatedOn : Int
  UpdatedOn : Option Int
  TID : Int
  deriving DecidableEq

namespace aws

/-- Go `aws.StringValue`: the pointed-to string, or the empty string for nil. -/
def StringValue (p : Option String) : String :=
  match p with
  | some s => s
  | none => ""

end aws

namespace route53

/-- The provider's record set: its name and the fields the job passes on. -/
structure ResourceRecordSet where
  Name : Option String
  Type_ : Option String
  TTL : Option Int
  ResourceRecords : List String
  SetIdentifier : Option String
  Weight : Option Int
  deriving DecidableEq

structure ListResourceRecordSetsInput where
  HostedZoneId : Option String
  StartRecordName : Option String
  StartRecordType : Option String
  deriving DecidableEq

structure Change where
  Action : Option String
  ResourceRecordSet : ResourceRecordSet
  deriving DecidableEq

structure ChangeBatch where
  Changes : List Change
  deriving DecidableEq

structure ChangeResourceRecordSetsInput where
  HostedZoneId : Option String
  ChangeBatch : ChangeBatch
  deriving DecidableEq

end route53

/-! ## The store -/

/-- One pattern of SQL `LIKE` against a string: backslash escapes the next
character, `%` stands for any run of characters, `_` for one character. -/
def sqlLike : List Char → List Char → Bool
  | [], s => s.isEmpty
  | '%' :: p, s => s.tails.any (sqlLike p)
  | '_' :: p, s =>
    match s with
    | [] => false
    | _ :: xs => sqlLike p xs
  | '\\' :: c :: p, s =>
    match s with
    | [] => false
    | x :: xs => x == c && sqlLike p xs
  | c :: p, s =>
    match s with
    | [] => false
    | x :: xs => x == c && sqlLike p xs

/-- The rows returned by `SELECT * FROM record_a where fqdn like ?`. -/
def selectLike (table : List DBRecord) (pattern : String) : List DBRecord :=
  table.filter (fun r => sqlLike pattern.data r.Fqdn.data)

/-- The name scanned by `SELECT fqdn FROM record_a where fqdn = ?` followed
by `QueryRow(name).Scan`: the first matching row, `none` when there is none
(`sql.ErrNoRows`). -/
def selectFqdn (table : List DBRecord) (name : String) : Option String :=
  (table.find? (fun r => r.Fqdn == name)).map (fun r => r.Fqdn)

/-! ## Environment, trace and outcome -/

/-- The fallible calls of `appMain`; those of the loop body carry the
position of the row being processed, a change also the position of the
record set in the listing. -/
inductive Site where
  | NewSession
  | GetHostedZone
  | Open
  | PrepareSelect
  | Query
  | Next (row : Nat)
  | Scan (row : Nat)
  | PrepareLookup (row : Nat)
  | QueryRow (row : Nat)
  | PrepareInsert (row : Nat)
  | Exec (row : Nat)
  | ListResourceRecordSets (row : Nat)
  | ChangeResourceRecordSets (row : Nat) (k : Nat)
  deriving DecidableEq

/-- What the outside world does during one run. -/
structure Env where
  /-- the error code a call fails with, `none` when it succeeds -/
  fault : Site → Option Nat
  /-- the value of `zone.HostedZone.Id` -/
  zoneId : Option String
  /-- the record sets returned by `ListResourceRecordSets` for a row -/
  listing : Nat → List route53.ResourceRecordSet
  /-- the `id` and `updated_on` the store gives a row inserted for a row -/
  assigned : Nat → Int × Option Int

/-- A call issued while a row is processed. -/
inductive Call where
  | Scan
  | Prepare (query : String)
  | QueryRow (name : String) (foundName : String)
  | Exec (fqdn : String) (type : Int) (content : String) (createdOn : Int) (tid : Int)
  | ListResourceRecordSets (input : route53.ListResourceRecordSetsInput)
  | ChangeResourceRecordSets (input : route53.ChangeResourceRecordSetsInput)
  deriving DecidableEq

/-- A trace entry: the row being processed, the call, the error returned. -/
structure Entry where
  row : Nat
  call : Call
  err : Option GoError
  deriving DecidableEq

/-- How a run ends: `return nil`, `return err`, or the index panic. -/
inductive Outcome where
  | ok
  | error (e : GoError)
  | panic
  deriving DecidableEq

structure Run where
  table : List DBRecord
  trace : List Entry
  result : Outcome
  deriving DecidableEq

/-! ## `appMain` -/

def lookupSQL : String := "SELECT fqdn FROM record_a where fqdn = ?"

def insertSQL : String :=
  "INSERT INTO record_a (fqdn, type, content, created_on, tid) VALUES (?, ?, ?, ?, ?)"

/-- The escaped wildcard marker, Go `"\\052."`. -/
def marker : String := "\\052."

/-- The argument of `st.Query`, Go `"\\\\052.%"`. -/
def likePattern : String := "\\\\052.%"

/-- Line 150: `strings.Split(temp.Fqdn, "\\052.")[1]`; `none` is the
index-out-of-range panic. -/
def bareName (fqdn : String) : Option String :=
  (strings.Split fqdn marker)[1]?

/-- Line 182: the test on a listed record set. -/
def matchesWildcard (name : String) (rs : route53.ResourceRecordSet) : Bool :=
  let recordName := aws.StringValue rs.Name
  strings.TrimSuffix recordName "." == "*." ++ name
    || strings.TrimSuffix recordName "." == "\\052." ++ name

/-- Lines 183-194: the record set renamed and wrapped in a single UPSERT. -/
def upsertInput (zoneId : Option String) (name : String)
    (rs : route53.ResourceRecordSet) : route53.ChangeResourceRecordSetsInput :=
  let rs := { rs with Name := some name }
  { HostedZoneId := zoneId,
    ChangeBatch := { Changes := [{ Action := some "UPSERT", ResourceRecordSet := rs }] } }

/-- Lines 180-200: the loop over the listing, `k` the position reached.
Returns the calls issued and the error that ended the loop, if any. -/
def changeLoop (env : Env) (i : Nat) (name : String) :
    Nat → List route53.ResourceRecordSet → List Entry × Option GoError
  | _, [] => ([], none)
  | k, rs :: rest =>
    if matchesWildcard name rs then
      let upsert := upsertInput env.zoneId name rs
      match env.fault (.ChangeResourceRecordSets i k) with
      | some c =>
        ([⟨i, .ChangeResourceRecordSets upsert, some (.failure c)⟩], some (.failure c))
      | none =>
        let r := changeLoop env i name (k + 1) rest
        (⟨i, .ChangeResourceRecordSets upsert, none⟩ :: r.1, r.2)
    else changeLoop env i name (k + 1) rest

/-- The row the store holds after the INSERT of line 164. -/
def storedRow (env : Env) (i : Nat) (name : String) (temp : DBRecord) : DBRecord :=
  { ID := (env.assigned i).1, Fqdn := name, Type_ := temp.Type_, Content := temp.Content,
    CreatedOn := temp.CreatedOn, UpdatedOn := (env.assigned i).2, TID := temp.TID }

/-- Lines 157-200: the body of `if err == sql.ErrNoRows || foundName == ""`. -/
def insertAndUpsert (env : Env) (i : Nat) (temp : DBRecord) (name : String)
    (table : List DBRecord) : Run :=
  match env.fault (.PrepareInsert i) with
  | some c => ⟨table, [⟨i, .Prepare insertSQL, some (.failure c)⟩], .error (.failure c)⟩
  | none =>
    let exec := Call.Exec name temp.Type_ temp.Content temp.CreatedOn temp.TID
    match env.fault (.Exec i) with
    | some c =>
      ⟨table, [⟨i, .Prepare insertSQL, none⟩, ⟨i, exec, some (.failure c)⟩],
        .error (.failure c)⟩
    | none =>
      let table := table ++ [storedRow env i name temp]
      let input : route53.ListResourceRecordSetsInput :=
        { HostedZoneId := env.zoneId, StartRecordName := some temp.Fqdn,
          StartRecordType := some "A" }
      match env.fault (.ListResourceRecordSets i) with
      | some c =>
        ⟨table, [⟨i, .Prepare insertSQL, none⟩, ⟨i, exec, none⟩,
          ⟨i, .ListResourceRecordSets input, some (.failure c)⟩], .error (.failure c)⟩
      | none =>
        let r := changeLoop env i name 0 (env.listing i)
        ⟨table, [⟨i, .Prepare insertSQL, none⟩, ⟨i, exec, none⟩,
          ⟨i, .ListResourceRecordSets input, none⟩] ++ r.1,
          match r.2 with
          | none => .ok
          | some e => .error e⟩

/-- Line 156: the condition `err == sql.ErrNoRows || foundName == ""`. -/
def shouldInsert (err : Option GoError) (foundName : String) : Bool :=
  err == some GoError.ErrNoRows || foundName == ""

/-- Lines 139-202: the loop body for the row `temp` at position `i`. -/
def processRow (env : Env) (i : Nat) (temp : DBRecord) (table : List DBRecord) : Run :=
  match env.fault (.Scan i) with
  | some c => ⟨table, [⟨i, .Scan, some (.failure c)⟩], .error (.failure c)⟩
  | none =>
    match env.fault (.PrepareLookup i) with
    | some c =>
      ⟨table, [⟨i, .Scan, none⟩, ⟨i, .Prepare lookupSQL, some (.failure c)⟩],
        .error (.failure c)⟩
    | none =>
      -- the `err` of line 144, nil from here on
      let err : Option GoError := none
      match bareName temp.Fqdn with
      | none => ⟨table, [⟨i, .Scan, none⟩, ⟨i, .Prepare lookupSQL, none⟩], .panic⟩
      | some name =>
        match env.fault (.QueryRow i) with
        | some c =>
          ⟨table, [⟨i, .Scan, none⟩, ⟨i, .Prepare lookupSQL, none⟩,
            ⟨i, .QueryRow name "", some (.failure c)⟩], .error (.failure c)⟩
        | none =>
          -- the `err` of line 152 is local to that statement
          let scanned : String × Option GoError :=
            match selectFqdn table name with
            | some found => (found, none)
            | none => ("", some .ErrNoRows)
          let foundName := scanned.1
          let head : List Entry := [⟨i, .Scan, none⟩, ⟨i, .Prepare lookupSQL, none⟩,
            ⟨i, .QueryRow name foundName, scanned.2⟩]
          if shouldInsert err foundName then
            let r := insertAndUpsert env i temp name table
            ⟨r.table, head ++ r.trace, r.result⟩
          else ⟨table, head, .ok⟩

/-- Lines 138-204: `for rows.Next()` over the selected rows, `i` the position
of the first of them. `rows.Next()` is false at the end of the rows and also
when fetching the next row fails; `rows.Err()` is never consulted, so both
leave the loop and reach `return nil`. -/
def rowsLoop (env : Env) : Nat → List DBRecord → List DBRecord → Run
  | _, [], table => ⟨table, [], .ok⟩
  | i, temp :: rest, table =>
    match env.fault (.Next i) with
    | some _ => ⟨table, [], .ok⟩
    | none =>
      let r := processRow env i temp table
      match r.result with
      | .ok =>
        let r2 := rowsLoop env (i + 1) rest r.table
        ⟨r2.table, r.trace ++ r2.trace, r2.result⟩
      | _ => r

/-- The function `appMain` of main.go, run against the table `table`. -/
def appMain (env : Env) (table : List DBRecord) : Run :=
  match env.fault .NewSession with
  | some c => ⟨table, [], .error (.failure c)⟩
  | none =>
    match env.fault .GetHostedZone with
    | some c => ⟨table, [], .error (.failure c)⟩
    | none =>
      match env.fault .Open with
      | some c => ⟨table, [], .error (.failure c)⟩
      | none =>
        match env.fault .PrepareSelect with
        | some c => ⟨table, [], .error (.failure c)⟩
        | none =>
          match env.fault .Query with
          | some c => ⟨table, [], .error (.failure c)⟩
          | none => rowsLoop env 0 (selectLike table likePattern) table

/-! ## Vocabulary for the statements -/

namespace strings

/-- The part of `s` before the first occurrence of `sep`, all of `s` when
there is none. -/
def firstSegment (s sep : List Char) : List Char :=
  match Index s sep with
  | none => s
  | some m => s.take m

end strings

/-- The INSERT statement: its preparation or its execution. -/
def Call.isInsert : Call → Bool
  | .Prepare query => query == insertSQL
  | .Exec _ _ _ _ _ => true
  | _ => false

/-- The execution of the INSERT statement. -/
def Call.isExec : Call → Bool
  | .Exec _ _ _ _ _ => true
  | _ => false

/-- A call to the DNS provider. -/
def Call.isProvider : Call → Bool
  | .ListResourceRecordSets _ => true
  | .ChangeResourceRecordSets _ => true
  | _ => false

/-- The entries of a trace issued while the row at position `i` was processed. -/
def rowTrace (i : Nat) (tr : List Entry) : List Entry :=
  tr.filter (fun e => e.row == i)

/-- The requests of the `ChangeResourceRecordSets` calls of a trace, in order. -/
def changeRequests (tr : List Entry) : List route53.ChangeResourceRecordSetsInput :=
  tr.filterMap (fun e =>
    match e.call with
    | .ChangeResourceRecordSets input => some input
    | _ => none)

/-- The rows the store holds for the INSERTs of a trace that succeeded. -/
def insertedRows (env : Env) (tr : List Entry) : List DBRecord :=
  tr.filterMap (fun e =>
    match e.call, e.err with
    | .Exec fqdn type content createdOn tid, none =>
      some { ID := (env.assigned e.row).1, Fqdn := fqdn, Type_ := type, Content := content,
             CreatedOn := createdOn, UpdatedOn := (env.assigned e.row).2, TID := tid }
    | _, _ => none)

/-- A call failed: it returned an error other than `sql.ErrNoRows`. -/
def Entry.failed (e : Entry) : Bool :=
  match e.err with
  | some (.failure _) => true
  | _ => false

/-! ## Sample data -/

/-- An environment in which every call succeeds; the provider lists an
escaped wildcard set, an unrelated set and a plain wildcard set. -/
def sampleEnv : Env :=
  { fault := fun _ => none,
    zoneId := some "Z1",
    listing := fun _ =>
      [⟨some "\\052.example.com.", some "A", some 300, ["1.2.3.4"], none, none⟩,
       ⟨some "www.example.com.", some "A", some 300, ["5.6.7.8"], none, none⟩,
       ⟨some "*.example.com.", some "A", some 60, ["1.2.3.4"], none, none⟩],
    assigned := fun i => (100 + i, none) }

/-- The environment `sampleEnv` with one failing call. -/
def faultAt (site : Site) (code : Nat) : Env :=
  { sampleEnv with fault := fun s => if s = site then some code else none }

/-- A table with two wildcard rows and one plain row. -/
def sampleTable : List DBRecord :=
  [⟨1, "\\052.example.com", 1, "1.2.3.4", 1500000000, some 1500000100, 7⟩,
   ⟨2, "plain.example.org", 1, "9.9.9.9", 1500000001, none, 8⟩,
   ⟨3, "\\052.lb.rancher.cloud", 1, "10.0.0.1", 1500000002, none, 9⟩]

/-- A table whose wildcard row has an empty bare name. -/
def emptyNameTable : List DBRecord :=
  [⟨1, "\\052.", 1, "1.2.3.4", 1500000000, none, 7⟩]

/-- A table that holds the same wildcard name twice. -/
def duplicateTable : List DBRecord :=
  [⟨1, "\\052.example.com", 1, "1.2.3.4", 1500000000, none, 7⟩,
   ⟨2, "\\052.example.com", 1, "1.2.3.4", 1500000050, none, 7⟩]

/-! ## Lemmas on the string functions -/

namespace strings

theorem Index_of_isPrefixOf {s sub : List Char} (h : sub.isPrefixOf s = true) :
    Index s sub = some 0 := by
  cases s <;> simp [Index, h]

theorem Index_eq_none_iff (s sub : List Char) : Index s sub = none ↔ ¬ sub <:+: s := by
  induction s with
  | nil =>
    cases sub <;> simp [Index]
  | cons c cs ih =>
    by_cases hp : sub.isPrefixOf (c :: cs) = true
    · simp only [Index, hp, if_true]
      have : sub <:+: c :: cs := (List.isPrefixOf_iff_prefix.mp hp).isInfix
      simp [this]
    · have hp2 : ¬ sub <+: c :: cs := fun h => hp (List.isPrefixOf_iff_prefix.mpr h)
      have hp3 : sub.isPrefixOf (c :: cs) = false := Bool.eq_false_iff.mpr hp
      rw [Index, hp3]
      simp only [Bool.false_eq_true, if_false, Option.map_eq_none', List.infix_cons_iff, hp2,
        false_or]
      exact ih

/-- `Index` returns the first position at which `sub` starts. -/
theorem Index_eq_some {s sub : List Char} {m : Nat} (h : Index s sub = some m) :
    sub <+: s.drop m ∧ ∀ j, j < m → ¬ sub <+: s.drop j := by
  induction s generalizing m with
  | nil =>
    by_cases hp : sub.isPrefixOf [] = true
    · simp only [Index, hp, if_true, Option.some.injEq] at h
      subst h
      exact ⟨List.isPrefixOf_iff_prefix.mp hp, fun j hj => absurd hj (Nat.not_lt_zero j)⟩
    · simp [Index, hp] at h
  | cons c cs ih =>
    by_cases hp : sub.isPrefixOf (c :: cs) = true
    · simp only [Index, hp, if_true, Option.some.injEq] at h
      subst h
      exact ⟨List.isPrefixOf_iff_prefix.mp hp, fun j hj => absurd hj (Nat.not_lt_zero j)⟩
    · have hp3 : sub.isPrefixOf (c :: cs) = false := Bool.eq_false_iff.mpr hp
      rw [Index, hp3] at h
      simp only [Bool.false_eq_true, if_false, Option.map_eq_some'] at h
      obtain ⟨m', hm', rfl⟩ := h
      obtain ⟨h1, h2⟩ := ih hm'
      refine ⟨by simpa using h1, ?_⟩
      intro j hj
      cases j with
      | zero => exact fun h => hp (List.isPrefixOf_iff_prefix.mpr (by simpa using h))
      | succ j => simpa using h2 j (by omega)

theorem Index_bound {s sub : List Char} {m : Nat} (h : Index s sub = some m) :
    m + sub.length ≤ s.length := by
  have h1 := (Index_eq_some h).1
  have := h1.length_le
  simp only [List.length_drop] at this
  by_cases hs : sub.length = 0
  · -- an empty `sub` is found at position 0
    have : sub = [] := List.length_eq_zero.mp hs
    subst this
    have : Index s [] = some 0 := Index_of_isPrefixOf (by simp)
    rw [this] at h
    simp only [Option.some.injEq] at h
    omega
  · omega

/-- No occurrence of `sub` lies before the position `Index` returns. -/
theorem Index_take_free {s sub : List Char} {m : Nat} (hsub : sub ≠ [])
    (h : Index s sub = some m) : ¬ sub <:+: s.take m := by
  rintro ⟨a, b, hab⟩
  have hlen : a.length + sub.length + b.length = (s.take m).length := by
    rw [← hab]; simp only [List.length_append]
  have hm : (s.take m).length ≤ m := by simp
  have hpos : 0 < sub.length := List.length_pos.mpr hsub
  apply (Index_eq_some h).2 a.length (by omega)
  have hs : s = a ++ (sub ++ (b ++ s.drop m)) := by
    calc s = s.take m ++ s.drop m := (List.take_append_drop m s).symm
      _ = a ++ (sub ++ (b ++ s.drop m)) := by rw [← hab]; simp
  rw [hs, List.drop_left]
  exact List.prefix_append _ _

theorem countLoop_le {sub : List Char} (hsub : sub ≠ []) :
    ∀ (fuel : Nat) (s : List Char), countLoop sub fuel s ≤ s.length := by
  intro fuel
  induction fuel with
  | zero => intro s; simp [countLoop]
  | succ fuel ih =>
    intro s
    unfold countLoop
    cases h : Index s sub with
    | none => simp
    | some i =>
      have hb := Index_bound h
      have hpos : 0 < sub.length := List.length_pos.mpr hsub
      have := ih (s.drop (i + sub.length))
      simp only [List.length_drop] at this
      simp only
      omega

/-- With more fuel than characters the count no longer depends on the fuel. -/
theorem countLoop_fuel {sub : List Char} (hsub : sub ≠ []) :
    ∀ (f1 f2 : Nat) (s : List Char), s.length < f1 → s.length < f2 →
      countLoop sub f1 s = countLoop sub f2 s := by
  intro f1
  induction f1 with
  | zero => intro f2 s h1; omega
  | succ f1 ih =>
    intro f2 s h1 h2
    cases f2 with
    | zero => omega
    | succ f2 =>
      unfold countLoop
      cases h : Index s sub with
      | none => rfl
      | some i =>
        have hb := Index_bound h
        have hpos : 0 < sub.length := List.length_pos.mpr hsub
        simp only
        rw [ih f2 (s.drop (i + sub.length)) (by simp only [List.length_drop]; omega)
          (by simp only [List.length_drop]; omega)]

theorem countLoop_eq_zero {sub : List Char} {fuel : Nat} {s : List Char}
    (h : countLoop sub (fuel + 1) s = 0) : Index s sub = none := by
  unfold countLoop at h
  cases hi : Index s sub with
  | none => rfl
  | some i => rw [hi] at h; simp only at h; omega

theorem genSplit_eq {s sep : List Char} (hsep : sep ≠ []) :
    genSplit s sep = splitLoop sep (countLoop sep (s.length + 1) s) s := by
  have hpos : 0 < sep.length := List.length_pos.mpr hsep
  have hle := countLoop_le hsep (s.length + 1) s
  unfold genSplit Count
  have h0 : ¬ sep.length = 0 := by omega
  simp only [h0, if_false]
  have : ¬ (countLoop sep (s.length + 1) s + 1 > s.length + 1) := by omega
  simp only [this, if_false, Nat.add_sub_cancel]

theorem genSplit_without_marker {s sep : List Char} (hsep : sep ≠ []) (h : ¬ sep <:+: s) :
    genSplit s sep = [s] := by
  have hi := (Index_eq_none_iff s sep).mpr h
  rw [genSplit_eq hsep]
  simp [countLoop, hi, splitLoop]

theorem genSplit_of_marker {sep : List Char} (hsep : sep ≠ []) (rest : List Char) :
    ∃ tail, genSplit (sep ++ rest) sep = [] :: firstSegment rest sep :: tail := by
  have hpos : 0 < sep.length := List.length_pos.mpr hsep
  have hi : Index (sep ++ rest) sep = some 0 :=
    Index_of_isPrefixOf (List.isPrefixOf_iff_prefix.mpr (List.prefix_append _ _))
  rw [genSplit_eq hsep]
  have hc : countLoop sep ((sep ++ rest).length + 1) (sep ++ rest)
      = 1 + countLoop sep (sep ++ rest).length rest := by
    conv => lhs; unfold countLoop
    simp [hi]
  rw [hc, Nat.add_comm 1]
  unfold splitLoop
  simp only [hi, List.take_zero, Nat.zero_add, List.drop_left]
  have hlen : (sep ++ rest).length = (sep.length + rest.length - 1) + 1 := by
    simp only [List.length_append]; omega
  generalize hk : countLoop sep (sep ++ rest).length rest = k
  unfold firstSegment
  cases k with
  | zero =>
    rw [hlen] at hk
    have := countLoop_eq_zero hk
    exact ⟨[], by simp [splitLoop, this]⟩
  | succ k =>
    unfold splitLoop
    cases h : Index rest sep with
    | none => exact ⟨[], rfl⟩
    | some m => exact ⟨_, rfl⟩

end strings

theorem marker_ne_nil : marker.data ≠ [] := by decide

theorem sqlLike_likePattern (s : List Char) :
    sqlLike likePattern.data s = marker.data.isPrefixOf s := by
  have hp : likePattern.data = ['\\', '\\', '0', '5', '2', '.', '%'] := rfl
  have hm : marker.data = ['\\', '0', '5', '2', '.'] := rfl
  rw [hp, hm]
  match s with
  | [] => rfl
  | [a] => simp [sqlLike, List.isPrefixOf]
  | [a, b] => simp [sqlLike, List.isPrefixOf]
  | [a, b, c] => simp [sqlLike, List.isPrefixOf]
  | [a, b, c, d] => simp [sqlLike, List.isPrefixOf]
  | a :: b :: c :: d :: e :: t =>
    have ht : (t.tails.any fun x => x.isEmpty) = true :=
      List.any_eq_true.mpr ⟨[], (List.mem_tails _ _).mpr List.nil_suffix, rfl⟩
    simp only [sqlLike, List.isPrefixOf]
    rw [Bool.eq_iff_iff]
    simp only [ht, Bool.and_true, Bool.and_eq_true, beq_iff_eq]
    constructor
    · rintro ⟨rfl, rfl, rfl, rfl, rfl⟩
      exact ⟨rfl, rfl, rfl, rfl, rfl⟩
    · rintro ⟨rfl, rfl, rfl, rfl, rfl⟩
      exact ⟨rfl, rfl, rfl, rfl, rfl⟩

theorem bareName_of_marker (rest : String) :
    bareName (marker ++ rest) = some (String.mk (strings.firstSegment rest.data marker.data)) := by
  obtain ⟨tail, h⟩ := strings.genSplit_of_marker marker_ne_nil rest.data
  unfold bareName strings.Split
  rw [String.data_append, h]
  simp

theorem Split_without_marker (s : String) (h : ¬ marker.data <:+: s.data) :
    strings.Split s marker = [s] := by
  unfold strings.Split
  rw [strings.genSplit_without_marker marker_ne_nil h]
  rfl

example : ¬ marker.data <:+: "example.com".data := by decide
example : bareName "\\052.example.com" = some "example.com" := bareName_of_marker "example.com"

/-! ## The loop over the listing -/

theorem changeLoop_row (env : Env) (i : Nat) (name : String) :
    ∀ (l : List route53.ResourceRecordSet) (k : Nat), ∀ e ∈ (changeLoop env i name k l).1,
      e.row = i ∧ ∃ input, e.call = .ChangeResourceRecordSets input := by
  intro l
  induction l with
  | nil => intro k e he; simp [changeLoop] at he
  | cons rs rest ih =>
    intro k e he
    unfold changeLoop at he
    split at he
    · split at he
      · simp only [List.mem_singleton] at he
        subst he
        exact ⟨rfl, _, rfl⟩
      · simp only [List.mem_cons] at he
        rcases he with rfl | he
        · exact ⟨rfl, _, rfl⟩
        · exact ih _ e he
    · exact ih _ e he

/-- The requests issued are a leading part of the expected ones, and all of
them when the loop ends without an error. -/
theorem changeLoop_requests (env : Env) (i : Nat) (name : String) :
    ∀ (l : List route53.ResourceRecordSet) (k : Nat),
      changeRequests (changeLoop env i name k l).1
          <+: (l.filter (matchesWildcard name)).map (upsertInput env.zoneId name) ∧
      ((changeLoop env i name k l).2 = none →
        changeRequests (changeLoop env i name k l).1
          = (l.filter (matchesWildcard name)).map (upsertInput env.zoneId name)) := by
  intro l
  induction l with
  | nil => intro k; simp [changeLoop, changeRequests]
  | cons rs rest ih =>
    intro k
    unfold changeLoop
    by_cases hm : matchesWildcard name rs = true
    · simp only [hm, if_true, List.filter_cons_of_pos, List.map_cons]
      cases hf : env.fault (.ChangeResourceRecordSets i k) with
      | some c =>
        simp only [changeRequests, List.filterMap_cons, List.filterMap_nil]
        refine ⟨?_, fun h => by simp at h⟩
        exact List.prefix_iff_eq_append.mpr (by simp)
      | none =>
        obtain ⟨h1, h2⟩ := ih (k + 1)
        simp only [changeRequests, List.filterMap_cons] at h1 h2 ⊢
        exact ⟨(List.prefix_cons_inj _).mpr h1, fun h => by rw [h2 h]⟩
    · simp only [hm, Bool.false_eq_true, if_false, List.filter_cons_of_neg hm]
      exact ih (k + 1)

/-- Only the last call of the loop can fail, and the loop then returns its error. -/
theorem changeLoop_failed (env : Env) (i : Nat) (name : String) :
    ∀ (l : List route53.ResourceRecordSet) (k : Nat),
      (∀ e ∈ (changeLoop env i name k l).1, e.err = none ∨
        ∃ c pre, e.err = some (.failure c) ∧ (changeLoop env i name k l).2 = some (.failure c) ∧
          (changeLoop env i name k l).1 = pre ++ [e]) ∧
      ((changeLoop env i name k l).2 = none → ∀ e ∈ (changeLoop env i name k l).1, e.err = none) ∧
      (∀ err, (changeLoop env i name k l).2 = some err →
        ∃ e ∈ (changeLoop env i name k l).1, e.err = some err) := by
  intro l
  induction l with
  | nil => intro k; simp [changeLoop]
  | cons rs rest ih =>
    intro k
    unfold changeLoop
    by_cases hm : matchesWildcard name rs = true
    · simp only [hm, if_true]
      cases hf : env.fault (.ChangeResourceRecordSets i k) with
      | some c =>
        refine ⟨?_, ?_, ?_⟩
        · intro e he
          simp only [List.mem_singleton] at he
          subst he
          exact Or.inr ⟨c, [], rfl, rfl, rfl⟩
        · intro h; simp at h
        · intro err h
          simp only [Option.some.injEq] at h
          subst h
          exact ⟨_, List.mem_singleton.mpr rfl, rfl⟩
      | none =>
        obtain ⟨h1, h2, h3⟩ := ih (k + 1)
        refine ⟨?_, ?_, ?_⟩
        · intro e he
          simp only [List.mem_cons] at he
          rcases he with rfl | he
          · exact Or.inl rfl
          · rcases h1 e he with h | ⟨c, pre, hc, hr, hp⟩
            · exact Or.inl h
            · exact Or.inr ⟨c, ⟨i, .ChangeResourceRecordSets (upsertInput env.zoneId name rs), none⟩ :: pre,
                hc, hr, by rw [hp]; rfl⟩
        · intro h e he
          simp only [List.mem_cons] at he
          rcases he with rfl | he
          · rfl
          · exact h2 h e he
        · intro err h
          obtain ⟨e, he, hee⟩ := h3 err h
          exact ⟨e, List.mem_cons_of_mem _ he, hee⟩
    · simp only [hm, Bool.false_eq_true, if_false]
      exact ih (k + 1)

/-! ## One row -/

theorem insertedRows_changeLoop (env : Env) (i : Nat) (name : String)
    (l : List route53.ResourceRecordSet) (k : Nat) :
    insertedRows env (changeLoop env i name k l).1 = [] := by
  unfold insertedRows
  rw [List.filterMap_eq_nil_iff]
  intro e he
  obtain ⟨_, input, hc⟩ := changeLoop_row env i name l k e he
  simp [hc]

theorem selectFqdn_eq_some {T : List DBRecord} {name found : String}
    (h : selectFqdn T name = some found) : found = name ∧ name ∈ T.map (fun r => r.Fqdn) := by
  unfold selectFqdn at h
  simp only [Option.map_eq_some'] at h
  obtain ⟨r, hr, rfl⟩ := h
  have h1 := List.find?_some hr
  have h2 := List.mem_of_find?_eq_some hr
  simp only [beq_iff_eq] at h1
  exact ⟨h1, List.mem_map.mpr ⟨r, h2, h1⟩⟩

theorem selectFqdn_eq_none {T : List DBRecord} {name : String}
    (h : selectFqdn T name = none) : name ∉ T.map (fun r => r.Fqdn) := by
  unfold selectFqdn at h
  simp only [Option.map_eq_none', List.find?_eq_none, beq_iff_eq] at h
  intro hm
  obtain ⟨r, hr, hrn⟩ := List.mem_map.mp hm
  exact h r hr hrn

/-- The ways the body of the `if` of line 156 can go. -/
theorem insertAndUpsert_cases (env : Env) (i : Nat) (temp : DBRecord) (name : String)
    (T : List DBRecord) :
    (∃ c, insertAndUpsert env i temp name T =
      ⟨T, [⟨i, .Prepare insertSQL, some (.failure c)⟩], .error (.failure c)⟩) ∨
    (∃ c, insertAndUpsert env i temp name T =
      ⟨T, [⟨i, .Prepare insertSQL, none⟩,
        ⟨i, .Exec name temp.Type_ temp.Content temp.CreatedOn temp.TID, some (.failure c)⟩],
        .error (.failure c)⟩) ∨
    (∃ c, insertAndUpsert env i temp name T =
      ⟨T ++ [storedRow env i name temp], [⟨i, .Prepare insertSQL, none⟩,
        ⟨i, .Exec name temp.Type_ temp.Content temp.CreatedOn temp.TID, none⟩,
        ⟨i, .ListResourceRecordSets ⟨env.zoneId, some temp.Fqdn, some "A"⟩,
          some (.failure c)⟩], .error (.failure c)⟩) ∨
    (insertAndUpsert env i temp name T =
      ⟨T ++ [storedRow env i name temp], [⟨i, .Prepare insertSQL, none⟩,
        ⟨i, .Exec name temp.Type_ temp.Content temp.CreatedOn temp.TID, none⟩,
        ⟨i, .ListResourceRecordSets ⟨env.zoneId, some temp.Fqdn, some "A"⟩, none⟩]
          ++ (changeLoop env i name 0 (env.listing i)).1,
        match (changeLoop env i name 0 (env.listing i)).2 with
        | none => .ok
        | some e => .error e⟩) := by
  unfold insertAndUpsert
  cases h1 : env.fault (.PrepareInsert i) with
  | some c => exact Or.inl ⟨c, rfl⟩
  | none =>
    cases h2 : env.fault (.Exec i) with
    | some c => exact Or.inr (Or.inl ⟨c, rfl⟩)
    | none =>
      cases h3 : env.fault (.ListResourceRecordSets i) with
      | some c => exact Or.inr (Or.inr (Or.inl ⟨c, rfl⟩))
      | none => exact Or.inr (Or.inr (Or.inr rfl))

/-- The ways the loop body can go for one row. -/
theorem processRow_cases (env : Env) (i : Nat) (temp : DBRecord) (T : List DBRecord) :
    (∃ c, processRow env i temp T =
      ⟨T, [⟨i, .Scan, some (.failure c)⟩], .error (.failure c)⟩) ∨
    (∃ c, processRow env i temp T =
      ⟨T, [⟨i, .Scan, none⟩, ⟨i, .Prepare lookupSQL, some (.failure c)⟩],
        .error (.failure c)⟩) ∨
    (bareName temp.Fqdn = none ∧ processRow env i temp T =
      ⟨T, [⟨i, .Scan, none⟩, ⟨i, .Prepare lookupSQL, none⟩], .panic⟩) ∨
    (∃ name c, bareName temp.Fqdn = some name ∧ processRow env i temp T =
      ⟨T, [⟨i, .Scan, none⟩, ⟨i, .Prepare lookupSQL, none⟩,
        ⟨i, .QueryRow name "", some (.failure c)⟩], .error (.failure c)⟩) ∨
    (∃ name, bareName temp.Fqdn = some name ∧ name ≠ "" ∧
      name ∈ T.map (fun r => r.Fqdn) ∧ processRow env i temp T =
      ⟨T, [⟨i, .Scan, none⟩, ⟨i, .Prepare lookupSQL, none⟩,
        ⟨i, .QueryRow name name, none⟩], .ok⟩) ∨
    (∃ name err, bareName temp.Fqdn = some name ∧
      ((err = some .ErrNoRows ∧ name ∉ T.map (fun r => r.Fqdn)) ∨
        (err = none ∧ name = "" ∧ name ∈ T.map (fun r => r.Fqdn))) ∧
      processRow env i temp T =
        ⟨(insertAndUpsert env i temp name T).table,
          [⟨i, .Scan, none⟩, ⟨i, .Prepare lookupSQL, none⟩, ⟨i, .QueryRow name "", err⟩]
            ++ (insertAndUpsert env i temp name T).trace,
          (insertAndUpsert env i temp name T).result⟩) := by
  unfold processRow
  cases h1 : env.fault (.Scan i) with
  | some c => exact Or.inl ⟨c, rfl⟩
  | none =>
    cases h2 : env.fault (.PrepareLookup i) with
    | some c => exact Or.inr (Or.inl ⟨c, rfl⟩)
    | none =>
      cases h3 : bareName temp.Fqdn with
      | none => exact Or.inr (Or.inr (Or.inl ⟨rfl, rfl⟩))
      | some name =>
        cases h4 : env.fault (.QueryRow i) with
        | some c => exact Or.inr (Or.inr (Or.inr (Or.inl ⟨name, c, rfl, rfl⟩)))
        | none =>
          cases h5 : selectFqdn T name with
          | none =>
            refine Or.inr (Or.inr (Or.inr (Or.inr (Or.inr ⟨name, some .ErrNoRows, rfl,
              Or.inl ⟨rfl, selectFqdn_eq_none h5⟩, ?_⟩))))
            simp [shouldInsert, h5]
          | some found =>
            obtain ⟨rfl, hmem⟩ := selectFqdn_eq_some h5
            by_cases hf : found = ""
            · refine Or.inr (Or.inr (Or.inr (Or.inr (Or.inr ⟨found, none, rfl,
                Or.inr ⟨rfl, hf, hmem⟩, ?_⟩))))
              subst hf
              simp [shouldInsert, h5]
            · refine Or.inr (Or.inr (Or.inr (Or.inr (Or.inl ⟨found, rfl, hf, hmem, ?_⟩))))
              simp [shouldInsert, hf, h5]

theorem insertAndUpsert_row (env : Env) (i : Nat) (temp : DBRecord) (name : String)
    (T : List DBRecord) : ∀ e ∈ (insertAndUpsert env i temp name T).trace, e.row = i := by
  intro e he
  rcases insertAndUpsert_cases env i temp name T with ⟨c, h⟩ | ⟨c, h⟩ | ⟨c, h⟩ | h <;>
    rw [h] at he <;>
    simp only [List.mem_cons, List.mem_append, List.mem_singleton, List.not_mem_nil,
      or_false] at he
  · subst he; rfl
  · rcases he with rfl | rfl <;> rfl
  · rcases he with rfl | rfl | rfl <;> rfl
  · rcases he with (rfl | rfl | rfl) | he
    · rfl
    · rfl
    · rfl
    · exact (changeLoop_row env i name _ _ e he).1

theorem processRow_row (env : Env) (i : Nat) (temp : DBRecord) (T : List DBRecord) :
    ∀ e ∈ (processRow env i temp T).trace, e.row = i := by
  intro e he
  rcases processRow_cases env i temp T with ⟨c, h⟩ | ⟨c, h⟩ | ⟨_, h⟩ | ⟨name, c, _, h⟩ |
    ⟨name, _, _, _, h⟩ | ⟨name, err, _, _, h⟩ <;>
    rw [h] at he <;>
    simp only [List.mem_cons, List.mem_append, List.mem_singleton, List.not_mem_nil,
      or_false] at he
  · subst he; rfl
  · rcases he with rfl | rfl <;> rfl
  · rcases he with rfl | rfl <;> rfl
  · rcases he with rfl | rfl | rfl <;> rfl
  · rcases he with rfl | rfl | rfl <;> rfl
  · rcases he with (rfl | rfl | rfl) | he
    · rfl
    · rfl
    · rfl
    · exact insertAndUpsert_row env i temp name T e he

/-- A failing call is the last of its row and its error is the result. -/
theorem insertAndUpsert_failed (env : Env) (i : Nat) (temp : DBRecord) (name : String)
    (T : List DBRecord) (e : Entry) (he : e ∈ (insertAndUpsert env i temp name T).trace)
    (c : Nat) (hc : e.err = some (.failure c)) :
    (insertAndUpsert env i temp name T).result = .error (.failure c) ∧
      ∃ pre, (insertAndUpsert env i temp name T).trace = pre ++ [e] := by
  rcases insertAndUpsert_cases env i temp name T with ⟨c', h⟩ | ⟨c', h⟩ | ⟨c', h⟩ | h <;>
    rw [h] at he ⊢ <;>
    simp only [List.mem_cons, List.mem_append, List.mem_singleton, List.not_mem_nil,
      or_false] at he
  · subst he
    simp only [Option.some.injEq, GoError.failure.injEq] at hc
    subst hc
    exact ⟨rfl, [], rfl⟩
  · rcases he with rfl | rfl
    · simp at hc
    · simp only [Option.some.injEq, GoError.failure.injEq] at hc
      subst hc
      exact ⟨rfl, [_], rfl⟩
  · rcases he with rfl | rfl | rfl
    · simp at hc
    · simp at hc
    · simp only [Option.some.injEq, GoError.failure.injEq] at hc
      subst hc
      exact ⟨rfl, [_, _], rfl⟩
  · rcases he with (rfl | rfl | rfl) | he
    · simp at hc
    · simp at hc
    · simp at hc
    · rcases (changeLoop_failed env i name (env.listing i) 0).1 e he with h0 | ⟨c', pre, h1, h2, h3⟩
      · rw [h0] at hc; simp at hc
      · rw [h1] at hc
        simp only [Option.some.injEq, GoError.failure.injEq] at hc
        subst hc
        refine ⟨by simp only [h2], ?_⟩
        exact ⟨_ ++ pre, by rw [h3, ← List.append_assoc]⟩

theorem processRow_failed (env : Env) (i : Nat) (temp : DBRecord) (T : List DBRecord)
    (e : Entry) (he : e ∈ (processRow env i temp T).trace)
    (c : Nat) (hc : e.err = some (.failure c)) :
    (processRow env i temp T).result = .error (.failure c) ∧
      ∃ pre, (processRow env i temp T).trace = pre ++ [e] := by
  rcases processRow_cases env i temp T with ⟨c', h⟩ | ⟨c', h⟩ | ⟨_, h⟩ | ⟨name, c', _, h⟩ |
    ⟨name, _, _, _, h⟩ | ⟨name, err, _, herr, h⟩ <;>
    rw [h] at he ⊢ <;>
    simp only [List.mem_cons, List.mem_append, List.mem_singleton, List.not_mem_nil,
      or_false] at he
  · subst he
    simp only [Option.some.injEq, GoError.failure.injEq] at hc
    subst hc
    exact ⟨rfl, [], rfl⟩
  · rcases he with rfl | rfl
    · simp at hc
    · simp only [Option.some.injEq, GoError.failure.injEq] at hc
      subst hc
      exact ⟨rfl, [_], rfl⟩
  · rcases he with rfl | rfl <;> simp at hc
  · rcases he with rfl | rfl | rfl
    · simp at hc
    · simp at hc
    · simp only [Option.some.injEq, GoError.failure.injEq] at hc
      subst hc
      exact ⟨rfl, [_, _], rfl⟩
  · rcases he with rfl | rfl | rfl <;> simp at hc
  · rcases he with (rfl | rfl | rfl) | he
    · simp at hc
    · simp at hc
    · rcases herr with ⟨rfl, _⟩ | ⟨rfl, _⟩ <;> simp at hc
    · obtain ⟨h1, pre, h2⟩ := insertAndUpsert_failed env i temp name T e he c hc
      exact ⟨h1, _ ++ pre, by rw [h2, ← List.append_assoc]⟩

theorem insertAndUpsert_table (env : Env) (i : Nat) (temp : DBRecord) (name : String)
    (T : List DBRecord) :
    (insertAndUpsert env i temp name T).table
      = T ++ insertedRows env (insertAndUpsert env i temp name T).trace := by
  rcases insertAndUpsert_cases env i temp name T with ⟨c, h⟩ | ⟨c, h⟩ | ⟨c, h⟩ | h <;> rw [h]
  · simp [insertedRows]
  · simp [insertedRows]
  · simp [insertedRows, storedRow]
  · have := insertedRows_changeLoop env i name (env.listing i) 0
    unfold insertedRows at this ⊢
    simp only [List.filterMap_append, this]
    simp [storedRow]

theorem processRow_table (env : Env) (i : Nat) (temp : DBRecord) (T : List DBRecord) :
    (processRow env i temp T).table = T ++ insertedRows env (processRow env i temp T).trace := by
  rcases processRow_cases env i temp T with ⟨c', h⟩ | ⟨c', h⟩ | ⟨_, h⟩ | ⟨name, c', _, h⟩ |
    ⟨name, _, _, _, h⟩ | ⟨name, err, _, herr, h⟩ <;> rw [h]
  · simp [insertedRows]
  · simp [insertedRows]
  · simp [insertedRows]
  · simp [insertedRows]
  · simp [insertedRows]
  · have := insertAndUpsert_table env i temp name T
    unfold insertedRows at this ⊢
    simp only [List.filterMap_append]
    rw [this]
    simp

/-! ## The loop over the rows -/

theorem rowsLoop_nil (env : Env) (j : Nat) (T : List DBRecord) :
    rowsLoop env j [] T = ⟨T, [], .ok⟩ := by
  unfold rowsLoop; rfl

/-- The ways one round of the loop over the rows can go. -/
theorem rowsLoop_cons (env : Env) (j : Nat) (temp : DBRecord) (rest T : List DBRecord) :
    (env.fault (.Next j) ≠ none ∧ rowsLoop env j (temp :: rest) T = ⟨T, [], .ok⟩) ∨
    (env.fault (.Next j) = none ∧ (processRow env j temp T).result ≠ .ok ∧
      rowsLoop env j (temp :: rest) T = processRow env j temp T) ∨
    (env.fault (.Next j) = none ∧ (processRow env j temp T).result = .ok ∧
      rowsLoop env j (temp :: rest) T =
        ⟨(rowsLoop env (j + 1) rest (processRow env j temp T).table).table,
          (processRow env j temp T).trace
            ++ (rowsLoop env (j + 1) rest (processRow env j temp T).table).trace,
          (rowsLoop env (j + 1) rest (processRow env j temp T).table).result⟩) := by
  rw [rowsLoop]
  cases h1 : env.fault (.Next j) with
  | some c => exact Or.inl ⟨by simp, rfl⟩
  | none =>
    cases h2 : (processRow env j temp T).result with
    | ok => exact Or.inr (Or.inr ⟨rfl, rfl, by simp only [h2]⟩)
    | error e => exact Or.inr (Or.inl ⟨rfl, by simp, by simp only [h2]⟩)
    | panic => exact Or.inr (Or.inl ⟨rfl, by simp, by simp only [h2]⟩)

theorem rowsLoop_row (env : Env) (rows : List DBRecord) :
    ∀ (j : Nat) (T : List DBRecord), ∀ e ∈ (rowsLoop env j rows T).trace,
      j ≤ e.row ∧ e.row < j + rows.length := by
  induction rows with
  | nil => intro j T e he; simp [rowsLoop_nil] at he
  | cons temp rest ih =>
    intro j T e he
    rcases rowsLoop_cons env j temp rest T with ⟨_, h⟩ | ⟨_, _, h⟩ | ⟨_, _, h⟩ <;> rw [h] at he
    · simp at he
    · have := processRow_row env j temp T e he
      simp only [List.length_cons]; omega
    · simp only [List.mem_append] at he
      rcases he with he | he
      · have := processRow_row env j temp T e he
        simp only [List.length_cons]; omega
      · have := ih (j + 1) _ e he
        simp only [List.length_cons]; omega

theorem rowsLoop_sorted (env : Env) (rows : List DBRecord) :
    ∀ (j : Nat) (T : List DBRecord),
      (rowsLoop env j rows T).trace.Pairwise (fun a b => a.row ≤ b.row) := by
  induction rows with
  | nil => intro j T; simp [rowsLoop_nil]
  | cons temp rest ih =>
    intro j T
    have hrow : (processRow env j temp T).trace.Pairwise (fun a b => a.row ≤ b.row) := by
      rw [List.pairwise_iff_forall_sublist]
      intro a b hab
      have ha := processRow_row env j temp T a (hab.subset (by simp))
      have hb := processRow_row env j temp T b (hab.subset (by simp))
      omega
    rcases rowsLoop_cons env j temp rest T with ⟨_, h⟩ | ⟨_, _, h⟩ | ⟨_, _, h⟩ <;> rw [h]
    · simp
    · exact hrow
    · rw [List.pairwise_append]
      refine ⟨hrow, ih _ _, ?_⟩
      intro a ha b hb
      have h1 := processRow_row env j temp T a ha
      have h2 := rowsLoop_row env rest (j + 1) _ b hb
      omega

theorem rowsLoop_failed (env : Env) (rows : List DBRecord) :
    ∀ (j : Nat) (T : List DBRecord) (e : Entry), e ∈ (rowsLoop env j rows T).trace →
      ∀ c, e.err = some (.failure c) →
        (rowsLoop env j rows T).result = .error (.failure c) ∧
          ∃ pre, (rowsLoop env j rows T).trace = pre ++ [e] := by
  induction rows with
  | nil => intro j T e he; simp [rowsLoop_nil] at he
  | cons temp rest ih =>
    intro j T e he c hc
    rcases rowsLoop_cons env j temp rest T with ⟨_, h⟩ | ⟨_, _, h⟩ | ⟨_, hok, h⟩ <;>
      rw [h] at he ⊢
    · simp at he
    · exact processRow_failed env j temp T e he c hc
    · simp only [List.mem_append] at he
      rcases he with he | he
      · have := (processRow_failed env j temp T e he c hc).1
        rw [hok] at this
        simp at this
      · obtain ⟨h1, pre, h2⟩ := ih (j + 1) _ e he c hc
        exact ⟨h1, _ ++ pre, by rw [h2, ← List.append_assoc]⟩

theorem insertedRows_append (env : Env) (a b : List Entry) :
    insertedRows env (a ++ b) = insertedRows env a ++ insertedRows env b := by
  unfold insertedRows
  rw [List.filterMap_append]

theorem rowsLoop_table (env : Env) (rows : List DBRecord) :
    ∀ (j : Nat) (T : List DBRecord),
      (rowsLoop env j rows T).table = T ++ insertedRows env (rowsLoop env j rows T).trace := by
  induction rows with
  | nil => intro j T; simp [rowsLoop_nil, insertedRows]
  | cons temp rest ih =>
    intro j T
    rcases rowsLoop_cons env j temp rest T with ⟨_, h⟩ | ⟨_, _, h⟩ | ⟨_, _, h⟩ <;> rw [h]
    · simp [insertedRows]
    · exact processRow_table env j temp T
    · have h1 := ih (j + 1) (processRow env j temp T).table
      have h2 := processRow_table env j temp T
      simp only
      rw [insertedRows_append, ← List.append_assoc, ← h2]
      exact h1

theorem rowTrace_eq_self {i : Nat} {tr : List Entry} (h : ∀ e ∈ tr, e.row = i) :
    rowTrace i tr = tr := by
  unfold rowTrace
  rw [List.filter_eq_self]
  intro e he
  simp [h e he]

theorem rowTrace_eq_nil {i : Nat} {tr : List Entry} (h : ∀ e ∈ tr, e.row ≠ i) :
    rowTrace i tr = [] := by
  unfold rowTrace
  rw [List.filter_eq_nil_iff]
  intro e he
  simp [h e he]

theorem mem_rowTrace {i : Nat} {tr : List Entry} {e : Entry} :
    e ∈ rowTrace i tr ↔ e ∈ tr ∧ e.row = i := by
  simp [rowTrace]

/-- The entries of row `i` in the trace of the loop are those of one round
of the loop body, run on a table between the initial and the final one. -/
theorem rowsLoop_rowTrace (env : Env) (i : Nat) (rows : List DBRecord) :
    ∀ (j : Nat) (T : List DBRecord),
      rowTrace i (rowsLoop env j rows T).trace = [] ∨
      ∃ temp T', j ≤ i ∧ rows[i - j]? = some temp ∧ T <+: T' ∧
        (processRow env i temp T').table <+: (rowsLoop env j rows T).table ∧
        rowTrace i (rowsLoop env j rows T).trace = (processRow env i temp T').trace := by
  induction rows with
  | nil => intro j T; left; simp [rowsLoop_nil, rowTrace]
  | cons temp rest ih =>
    intro j T
    have hpre : T <+: (processRow env j temp T).table := by
      rw [processRow_table]; exact List.prefix_append _ _
    rcases rowsLoop_cons env j temp rest T with ⟨_, h⟩ | ⟨_, _, h⟩ | ⟨_, _, h⟩ <;> rw [h]
    · left; simp [rowTrace]
    · by_cases hij : j = i
      · subst hij
        right
        exact ⟨temp, T, le_refl _, by simp, List.prefix_refl _, List.prefix_refl _,
          rowTrace_eq_self (processRow_row env j temp T)⟩
      · left
        exact rowTrace_eq_nil (fun e he => by rw [processRow_row env j temp T e he]; exact hij)
    · have hfin : (processRow env j temp T).table
          <+: (rowsLoop env (j + 1) rest (processRow env j temp T).table).table := by
        rw [rowsLoop_table env rest (j + 1)]; exact List.prefix_append _ _
      by_cases hij : j = i
      · subst hij
        right
        refine ⟨temp, T, le_refl _, by simp, List.prefix_refl _, hfin, ?_⟩
        unfold rowTrace
        rw [List.filter_append]
        have h1 := rowTrace_eq_self (processRow_row env j temp T)
        have h2 : rowTrace j (rowsLoop env (j + 1) rest (processRow env j temp T).table).trace
            = [] :=
          rowTrace_eq_nil (fun e he => by
            have := rowsLoop_row env rest (j + 1) _ e he; omega)
        unfold rowTrace at h1 h2
        rw [h1, h2, List.append_nil]
      · have h1 : rowTrace i (processRow env j temp T).trace = [] :=
          rowTrace_eq_nil (fun e he => by rw [processRow_row env j temp T e he]; exact hij)
        have hsplit : rowTrace i ((processRow env j temp T).trace
            ++ (rowsLoop env (j + 1) rest (processRow env j temp T).table).trace)
            = rowTrace i (rowsLoop env (j + 1) rest (processRow env j temp T).table).trace := by
          unfold rowTrace at h1 ⊢
          rw [List.filter_append, h1, List.nil_append]
        simp only
        rw [hsplit]
        rcases ih (j + 1) (processRow env j temp T).table with h0 | ⟨t, T', hj, hget, hT, hT2, ht⟩
        · left; exact h0
        · right
          refine ⟨t, T', by omega, ?_, hpre.trans hT, hT2, ht⟩
          have : i - j = (i - (j + 1)) + 1 := by omega
          rw [this]
          simpa using hget

/-! ## The run -/

/-- Either a call before the loop fails, or the run is the loop over the
selected rows. -/
theorem appMain_cases (env : Env) (table : List DBRecord) :
    (∃ c, appMain env table = ⟨table, [], .error (.failure c)⟩) ∨
    appMain env table = rowsLoop env 0 (selectLike table likePattern) table := by
  unfold appMain
  cases env.fault .NewSession with
  | some c => exact Or.inl ⟨c, rfl⟩
  | none =>
    cases env.fault .GetHostedZone with
    | some c => exact Or.inl ⟨c, rfl⟩
    | none =>
      cases env.fault .Open with
      | some c => exact Or.inl ⟨c, rfl⟩
      | none =>
        cases env.fault .PrepareSelect with
        | some c => exact Or.inl ⟨c, rfl⟩
        | none =>
          cases env.fault .Query with
          | some c => exact Or.inl ⟨c, rfl⟩
          | none => exact Or.inr rfl

theorem appMain_rowTrace (env : Env) (table : List DBRecord) (i : Nat) :
    rowTrace i (appMain env table).trace = [] ∨
    ∃ temp T, (selectLike table likePattern)[i]? = some temp ∧ table <+: T ∧
      (processRow env i temp T).table <+: (appMain env table).table ∧
      rowTrace i (appMain env table).trace = (processRow env i temp T).trace := by
  rcases appMain_cases env table with ⟨c, h⟩ | h <;> rw [h]
  · left; rfl
  · rcases rowsLoop_rowTrace env i (selectLike table likePattern) 0 table with
      h0 | ⟨temp, T, _, hget, hT, hT2, ht⟩
    · left; exact h0
    · right; exact ⟨temp, T, by simpa using hget, hT, hT2, ht⟩

theorem appMain_table (env : Env) (table : List DBRecord) :
    (appMain env table).table = table ++ insertedRows env (appMain env table).trace := by
  rcases appMain_cases env table with ⟨c, h⟩ | h <;> rw [h]
  · simp [insertedRows]
  · exact rowsLoop_table env _ 0 table

theorem lookupSQL_ne_insertSQL : lookupSQL ≠ insertSQL := by decide

theorem changeRequests_append (a b : List Entry) :
    changeRequests (a ++ b) = changeRequests a ++ changeRequests b := by
  unfold changeRequests
  rw [List.filterMap_append]

theorem insertAndUpsert_exec (env : Env) (i : Nat) (temp : DBRecord) (name : String)
    (T : List DBRecord) (e : Entry) (he : e ∈ (insertAndUpsert env i temp name T).trace)
    (fqdn : String) (type : Int) (content : String) (createdOn tid : Int)
    (hc : e.call = .Exec fqdn type content createdOn tid) :
    fqdn = name ∧ type = temp.Type_ ∧ content = temp.Content ∧
      createdOn = temp.CreatedOn ∧ tid = temp.TID := by
  have hcl := changeLoop_row env i name (env.listing i) 0
  rcases insertAndUpsert_cases env i temp name T with ⟨c, h⟩ | ⟨c, h⟩ | ⟨c, h⟩ | h <;>
    rw [h] at he <;>
    simp only [List.mem_cons, List.mem_append, List.mem_singleton, List.not_mem_nil,
      or_false] at he
  · subst he; simp at hc
  · rcases he with rfl | rfl
    · simp at hc
    · simp only [Call.Exec.injEq] at hc
      obtain ⟨rfl, rfl, rfl, rfl, rfl⟩ := hc
      exact ⟨rfl, rfl, rfl, rfl, rfl⟩
  · rcases he with rfl | rfl | rfl
    · simp at hc
    · simp only [Call.Exec.injEq] at hc
      obtain ⟨rfl, rfl, rfl, rfl, rfl⟩ := hc
      exact ⟨rfl, rfl, rfl, rfl, rfl⟩
    · simp at hc
  · rcases he with (rfl | rfl | rfl) | he
    · simp at hc
    · simp only [Call.Exec.injEq] at hc
      obtain ⟨rfl, rfl, rfl, rfl, rfl⟩ := hc
      exact ⟨rfl, rfl, rfl, rfl, rfl⟩
    · simp at hc
    · obtain ⟨_, input, hc'⟩ := hcl e he
      rw [hc'] at hc; simp at hc

/-- The arguments of the INSERT come from the source row. -/
theorem processRow_exec (env : Env) (i : Nat) (temp : DBRecord) (T : List DBRecord)
    (e : Entry) (he : e ∈ (processRow env i temp T).trace)
    (fqdn : String) (type : Int) (content : String) (createdOn tid : Int)
    (hc : e.call = .Exec fqdn type content createdOn tid) :
    bareName temp.Fqdn = some fqdn ∧ type = temp.Type_ ∧ content = temp.Content ∧
      createdOn = temp.CreatedOn ∧ tid = temp.TID := by
  rcases processRow_cases env i temp T with ⟨c', h⟩ | ⟨c', h⟩ | ⟨_, h⟩ | ⟨name, c', _, h⟩ |
    ⟨name, _, hne, _, h⟩ | ⟨name, err, hb, herr, h⟩ <;>
    rw [h] at he <;>
    simp only [List.mem_cons, List.mem_append, List.mem_singleton, List.not_mem_nil,
      or_false] at he
  · subst he; simp at hc
  · rcases he with rfl | rfl <;> simp at hc
  · rcases he with rfl | rfl <;> simp at hc
  · rcases he with rfl | rfl | rfl <;> simp at hc
  · rcases he with rfl | rfl | rfl <;> simp at hc
  · rcases he with (rfl | rfl | rfl) | he
    · simp at hc
    · simp at hc
    · simp at hc
    · obtain ⟨rfl, h2⟩ := insertAndUpsert_exec env i temp name T e he _ _ _ _ _ hc
      exact ⟨hb, h2⟩

theorem insertAndUpsert_requests (env : Env) (i : Nat) (temp : DBRecord) (name : String)
    (T : List DBRecord) :
    changeRequests (insertAndUpsert env i temp name T).trace
        <+: ((env.listing i).filter (matchesWildcard name)).map (upsertInput env.zoneId name) ∧
    ((∃ e ∈ (insertAndUpsert env i temp name T).trace,
        (∃ input, e.call = .ListResourceRecordSets input) ∧ e.err = none) →
      (∀ e ∈ (insertAndUpsert env i temp name T).trace, ∀ c, e.err ≠ some (.failure c)) →
      changeRequests (insertAndUpsert env i temp name T).trace
        = ((env.listing i).filter (matchesWildcard name)).map (upsertInput env.zoneId name)) := by
  rcases insertAndUpsert_cases env i temp name T with ⟨c, h⟩ | ⟨c, h⟩ | ⟨c, h⟩ | h <;> rw [h]
  · simp [changeRequests]
  · simp [changeRequests]
  · simp [changeRequests]
  · obtain ⟨h1, h2⟩ := changeLoop_requests env i name (env.listing i) 0
    obtain ⟨f1, _, f3⟩ := changeLoop_failed env i name (env.listing i) 0
    have hhead : changeRequests [(⟨i, .Prepare insertSQL, none⟩ : Entry),
        ⟨i, .Exec name temp.Type_ temp.Content temp.CreatedOn temp.TID, none⟩,
        ⟨i, .ListResourceRecordSets ⟨env.zoneId, some temp.Fqdn, some "A"⟩, none⟩] = [] := rfl
    simp only [changeRequests_append, hhead, List.nil_append]
    refine ⟨h1, fun _ hnf => h2 ?_⟩
    cases hr : (changeLoop env i name 0 (env.listing i)).2 with
    | none => rfl
    | some err =>
      exfalso
      obtain ⟨e, he, hee⟩ := f3 err hr
      rcases f1 e he with h0 | ⟨c, _, hc, _, _⟩
      · rw [h0] at hee; simp at hee
      · exact hnf e (List.mem_append_right _ he) c hc

/-- The change requests of one row. -/
theorem processRow_requests (env : Env) (i : Nat) (temp : DBRecord) (T : List DBRecord)
    (b : String) (hb : bareName temp.Fqdn = some b) :
    changeRequests (processRow env i temp T).trace
        <+: ((env.listing i).filter (matchesWildcard b)).map (upsertInput env.zoneId b) ∧
    ((∃ e ∈ (processRow env i temp T).trace,
        (∃ input, e.call = .ListResourceRecordSets input) ∧ e.err = none) →
      (∀ e ∈ (processRow env i temp T).trace, ∀ c, e.err ≠ some (.failure c)) →
      changeRequests (processRow env i temp T).trace
        = ((env.listing i).filter (matchesWildcard b)).map (upsertInput env.zoneId b)) := by
  rcases processRow_cases env i temp T with ⟨c', h⟩ | ⟨c', h⟩ | ⟨_, h⟩ | ⟨name, c', _, h⟩ |
    ⟨name, _, hne, _, h⟩ | ⟨name, err, hb', herr, h⟩ <;> rw [h]
  · simp [changeRequests]
  · simp [changeRequests]
  · simp [changeRequests]
  · simp [changeRequests]
  · simp [changeRequests]
  · rw [hb] at hb'
    simp only [Option.some.injEq] at hb'
    subst hb'
    obtain ⟨h1, h2⟩ := insertAndUpsert_requests env i temp b T
    have hhead : changeRequests [(⟨i, .Scan, none⟩ : Entry), ⟨i, .Prepare lookupSQL, none⟩,
        ⟨i, .QueryRow b "", err⟩] = [] := rfl
    simp only [changeRequests_append, hhead, List.nil_append]
    refine ⟨h1, ?_⟩
    rintro ⟨e, he, ⟨input, hin⟩, hen⟩ hnf
    apply h2
    · simp only [List.mem_append, List.mem_cons, List.mem_singleton, List.not_mem_nil,
        or_false] at he
      rcases he with (rfl | rfl | rfl) | he
      · simp at hin
      · simp at hin
      · simp at hin
      · exact ⟨e, he, ⟨input, hin⟩, hen⟩
    · intro e he
      exact hnf e (List.mem_append_right _ he)

theorem processRow_panic (env : Env) (i : Nat) (temp : DBRecord) (T : List DBRecord)
    (h : (processRow env i temp T).result = .panic) : bareName temp.Fqdn = none := by
  rcases processRow_cases env i temp T with ⟨c', h'⟩ | ⟨c', h'⟩ | ⟨hb, h'⟩ | ⟨name, c', _, h'⟩ |
    ⟨name, _, hne, _, h'⟩ | ⟨name, err, hb', herr, h'⟩ <;> rw [h'] at h
  · simp at h
  · simp at h
  · exact hb
  · simp at h
  · simp at h
  · exfalso
    rcases insertAndUpsert_cases env i temp name T with ⟨c, h2⟩ | ⟨c, h2⟩ | ⟨c, h2⟩ | h2 <;>
      rw [h2] at h
    · simp at h
    · simp at h
    · simp at h
    · simp only at h
      split at h <;> simp at h

theorem rowsLoop_panic (env : Env) (rows : List DBRecord) :
    ∀ (j : Nat) (T : List DBRecord), (rowsLoop env j rows T).result = .panic →
      ∃ r ∈ rows, bareName r.Fqdn = none := by
  induction rows with
  | nil => intro j T h; simp [rowsLoop_nil] at h
  | cons temp rest ih =>
    intro j T hp
    rcases rowsLoop_cons env j temp rest T with ⟨_, h⟩ | ⟨_, _, h⟩ | ⟨_, _, h⟩ <;> rw [h] at hp
    · simp at hp
    · exact ⟨temp, by simp, processRow_panic env j temp T hp⟩
    · obtain ⟨r, hr, hb⟩ := ih _ _ hp
      exact ⟨r, by simp [hr], hb⟩

theorem mem_selectLike {table : List DBRecord} {r : DBRecord}
    (h : r ∈ selectLike table likePattern) :
    r ∈ table ∧ ∃ rest : String, r.Fqdn = marker ++ rest := by
  unfold selectLike at h
  rw [List.mem_filter, sqlLike_likePattern] at h
  obtain ⟨h1, h2⟩ := h
  obtain ⟨t, ht⟩ := List.isPrefixOf_iff_prefix.mp h2
  exact ⟨h1, String.mk t, by ext1; rw [String.data_append, ← ht]⟩

/-! ## Re-running the job -/

theorem firstSegment_free {sep : List Char} (hsep : sep ≠ []) (s : List Char) :
    ¬ sep <:+: strings.firstSegment s sep := by
  unfold strings.firstSegment
  cases hi : strings.Index s sep with
  | none => exact (strings.Index_eq_none_iff _ _).mp hi
  | some m => exact strings.Index_take_free hsep hi

/-- The bare name of a selected row is not selected by the pattern. -/
theorem sqlLike_bareName {rest name : String} (h : bareName (marker ++ rest) = some name) :
    sqlLike likePattern.data name.data = false := by
  rw [bareName_of_marker] at h
  simp only [Option.some.injEq] at h
  subst h
  rw [sqlLike_likePattern, Bool.eq_false_iff]
  intro hp
  exact firstSegment_free marker_ne_nil rest.data (List.isPrefixOf_iff_prefix.mp hp).isInfix

theorem selectLike_append (a b : List DBRecord) (p : String) :
    selectLike (a ++ b) p = selectLike a p ++ selectLike b p := by
  unfold selectLike
  rw [List.filter_append]

theorem insertAndUpsert_table_cases (env : Env) (i : Nat) (temp : DBRecord) (name : String)
    (T : List DBRecord) :
    ((insertAndUpsert env i temp name T).table = T ∧
      (insertAndUpsert env i temp name T).result ≠ .ok) ∨
    (insertAndUpsert env i temp name T).table = T ++ [storedRow env i name temp] := by
  rcases insertAndUpsert_cases env i temp name T with ⟨c, h⟩ | ⟨c, h⟩ | ⟨c, h⟩ | h <;> rw [h]
  · left; simp
  · left; simp
  · right; rfl
  · right; rfl

/-- The table after one row: unchanged, or one row longer, the new row named
by the bare name, which the table did not hold unless it is empty. -/
theorem processRow_table_cases (env : Env) (i : Nat) (temp : DBRecord) (T : List DBRecord) :
    ((processRow env i temp T).table = T ∧
      ((processRow env i temp T).result = .ok →
        ∃ b, bareName temp.Fqdn = some b ∧ b ∈ T.map (fun r => r.Fqdn))) ∨
    ∃ name, bareName temp.Fqdn = some name ∧
      (name ∉ T.map (fun r => r.Fqdn) ∨ name = "") ∧
      (processRow env i temp T).table = T ++ [storedRow env i name temp] := by
  rcases processRow_cases env i temp T with ⟨c', h⟩ | ⟨c', h⟩ | ⟨_, h⟩ | ⟨name, c', _, h⟩ |
    ⟨name, hb, hne, hmem, h⟩ | ⟨name, err, hb, herr, h⟩ <;> rw [h]
  · left; simp
  · left; simp
  · left; simp
  · left; simp
  · left; exact ⟨rfl, fun _ => ⟨name, hb, hmem⟩⟩
  · rcases insertAndUpsert_table_cases env i temp name T with ⟨h1, h2⟩ | h1
    · left; exact ⟨h1, fun hok => absurd hok h2⟩
    · right
      refine ⟨name, hb, ?_, h1⟩
      rcases herr with ⟨_, h3⟩ | ⟨_, h3, _⟩
      · exact Or.inl h3
      · exact Or.inr h3

/-- A row whose non-empty bare name the table holds is skipped. -/
theorem processRow_skip (env : Env) (i : Nat) (temp : DBRecord) (T : List DBRecord)
    (b : String) (hb : bareName temp.Fqdn = some b) (hne : b ≠ "")
    (hmem : b ∈ T.map (fun r => r.Fqdn)) :
    (processRow env i temp T).table = T ∧
    ∀ e ∈ (processRow env i temp T).trace,
      e.call.isInsert = false ∧ e.call.isProvider = false ∧
      ∀ name found, e.call = .QueryRow name found →
        name = b ∧ e.err ≠ some .ErrNoRows ∧ (e.err = none → found = b) := by
  rcases processRow_cases env i temp T with ⟨c', h⟩ | ⟨c', h⟩ | ⟨hb', h⟩ | ⟨name, c', hb', h⟩ |
    ⟨name, hb', _, _, h⟩ | ⟨name, err, hb', herr, h⟩ <;> rw [h]
  · simp [Call.isInsert, Call.isProvider]
  · simp [Call.isInsert, Call.isProvider, lookupSQL_ne_insertSQL]
  · rw [hb] at hb'; simp at hb'
  · rw [hb] at hb'
    simp only [Option.some.injEq] at hb'
    subst hb'
    simp [Call.isInsert, Call.isProvider, lookupSQL_ne_insertSQL]
  · rw [hb] at hb'
    simp only [Option.some.injEq] at hb'
    subst hb'
    simp [Call.isInsert, Call.isProvider, lookupSQL_ne_insertSQL]
  · rw [hb] at hb'
    simp only [Option.some.injEq] at hb'
    subst hb'
    rcases herr with ⟨_, h3⟩ | ⟨_, h3, _⟩
    · exact absurd hmem h3
    · exact absurd h3 hne

theorem rowsLoop_skip (env : Env) (rows : List DBRecord) :
    ∀ (j : Nat) (T : List DBRecord),
      (∀ r ∈ rows, ∃ b, bareName r.Fqdn = some b ∧ b ≠ "" ∧ b ∈ T.map (fun r => r.Fqdn)) →
      (rowsLoop env j rows T).table = T ∧
      ∀ e ∈ (rowsLoop env j rows T).trace,
        e.call.isInsert = false ∧ e.call.isProvider = false := by
  induction rows with
  | nil => intro j T _; simp [rowsLoop_nil]
  | cons temp rest ih =>
    intro j T hall
    obtain ⟨b, hb, hne, hmem⟩ := hall temp (by simp)
    obtain ⟨h1, h2⟩ := processRow_skip env j temp T b hb hne hmem
    rcases rowsLoop_cons env j temp rest T with ⟨_, h⟩ | ⟨_, _, h⟩ | ⟨_, _, h⟩ <;> rw [h]
    · simp
    · exact ⟨h1, fun e he => ⟨(h2 e he).1, (h2 e he).2.1⟩⟩
    · have hrest := ih (j + 1) T (fun r hr => hall r (by simp [hr]))
      rw [h1]
      refine ⟨hrest.1, ?_⟩
      intro e he
      simp only [List.mem_append] at he
      rcases he with he | he
      · exact ⟨(h2 e he).1, (h2 e he).2.1⟩
      · exact hrest.2 e he

theorem mem_fqdns_mono {A B : List DBRecord} (h : A <+: B) {b : String}
    (hb : b ∈ A.map (fun r => r.Fqdn)) : b ∈ B.map (fun r => r.Fqdn) := by
  obtain ⟨t, rfl⟩ := h
  simp only [List.map_append, List.mem_append]
  exact Or.inl hb

theorem rowsLoop_extends (env : Env) (rows : List DBRecord) (j : Nat) (T : List DBRecord) :
    T <+: (rowsLoop env j rows T).table := by
  rw [rowsLoop_table]; exact List.prefix_append _ _

/-- A run that fetched and processed every row without error leaves the bare
name of every row in the table. -/
theorem rowsLoop_covers (env : Env) (hcur : ∀ k, env.fault (.Next k) = none)
    (rows : List DBRecord) :
    ∀ (j : Nat) (T : List DBRecord), (rowsLoop env j rows T).result = .ok →
      ∀ r ∈ rows, ∃ b, bareName r.Fqdn = some b ∧
        b ∈ (rowsLoop env j rows T).table.map (fun r => r.Fqdn) := by
  induction rows with
  | nil => intro j T _ r hr; simp at hr
  | cons temp rest ih =>
    intro j T hok r hr
    rcases rowsLoop_cons env j temp rest T with ⟨hn, _⟩ | ⟨_, hnok, h⟩ | ⟨_, hrow, h⟩
    · exact absurd (hcur j) hn
    · rw [h] at hok; exact absurd hok hnok
    · rw [h] at hok ⊢
      simp only at hok ⊢
      simp only [List.mem_cons] at hr
      rcases hr with rfl | hr
      · have hpre := rowsLoop_extends env rest (j + 1) (processRow env j r T).table
        rcases processRow_table_cases env j r T with ⟨h1, h2⟩ | ⟨name, hb, _, h1⟩
        · obtain ⟨b, hb, hmem⟩ := h2 hrow
          refine ⟨b, hb, mem_fqdns_mono hpre ?_⟩
          rw [h1]; exact hmem
        · refine ⟨name, hb, mem_fqdns_mono hpre ?_⟩
          rw [h1]; simp [storedRow]
      · exact ih (j + 1) _ hok r hr

theorem rowsLoop_nodup (env : Env) (rows : List DBRecord) :
    ∀ (j : Nat) (T : List DBRecord), (∀ r ∈ rows, bareName r.Fqdn ≠ some "") →
      (T.map (fun r => r.Fqdn)).Nodup →
      ((rowsLoop env j rows T).table.map (fun r => r.Fqdn)).Nodup := by
  induction rows with
  | nil => intro j T _ h; simpa [rowsLoop_nil] using h
  | cons temp rest ih =>
    intro j T hne hnd
    have hrow : ((processRow env j temp T).table.map (fun r => r.Fqdn)).Nodup := by
      rcases processRow_table_cases env j temp T with ⟨h1, _⟩ | ⟨name, hb, hor, h1⟩
      · rw [h1]; exact hnd
      · rw [h1]
        rcases hor with hnot | hemp
        · simp only [List.map_append, List.map_cons, List.map_nil]
          rw [List.nodup_append]
          refine ⟨hnd, by simp, ?_⟩
          intro a ha hb'
          simp only [List.mem_singleton, storedRow] at hb'
          subst hb'
          exact hnot ha
        · subst hemp
          exact absurd hb (hne temp (by simp))
    rcases rowsLoop_cons env j temp rest T with ⟨_, h⟩ | ⟨_, _, h⟩ | ⟨_, _, h⟩ <;> rw [h]
    · exact hnd
    · exact hrow
    · exact ih (j + 1) _ (fun r hr => hne r (by simp [hr])) hrow

theorem rowsLoop_selectLike (env : Env) (rows : List DBRecord) :
    ∀ (j : Nat) (T : List DBRecord), (∀ r ∈ rows, ∃ rest : String, r.Fqdn = marker ++ rest) →
      selectLike (rowsLoop env j rows T).table likePattern = selectLike T likePattern := by
  induction rows with
  | nil => intro j T _; simp [rowsLoop_nil]
  | cons temp rest ih =>
    intro j T hall
    have hrow : selectLike (processRow env j temp T).table likePattern
        = selectLike T likePattern := by
      rcases processRow_table_cases env j temp T with ⟨h1, _⟩ | ⟨name, hb, _, h1⟩
      · rw [h1]
      · obtain ⟨rest', hr⟩ := hall temp (by simp)
        rw [hr] at hb
        have := sqlLike_bareName hb
        rw [h1, selectLike_append]
        simp [selectLike, storedRow, this]
    rcases rowsLoop_cons env j temp rest T with ⟨_, h⟩ | ⟨_, _, h⟩ | ⟨_, _, h⟩ <;> rw [h]
    · exact hrow
    · simp only
      rw [ih (j + 1) _ (fun r hr => hall r (by simp [hr])), hrow]

/-- A run leaves the selection of wildcard rows as it was. -/
theorem appMain_selectLike (env : Env) (table : List DBRecord) :
    selectLike (appMain env table).table likePattern = selectLike table likePattern := by
  rcases appMain_cases env table with ⟨c, h⟩ | h <;> rw [h]
  exact rowsLoop_selectLike env _ 0 table (fun r hr => (mem_selectLike hr).2)

/-- What an executed INSERT of a run carries, and where its row ends up. -/
theorem appMain_exec (env : Env) (table : List DBRecord) (e : Entry)
    (fqdn : String) (type : Int) (content : String) (createdOn tid : Int)
    (he : e ∈ (appMain env table).trace)
    (hc : e.call = .Exec fqdn type content createdOn tid) :
    ∃ temp, (selectLike table likePattern)[e.row]? = some temp ∧
      bareName temp.Fqdn = some fqdn ∧ type = temp.Type_ ∧ content = temp.Content ∧
      createdOn = temp.CreatedOn ∧ tid = temp.TID ∧
      (e.err = none →
        ({ ID := (env.assigned e.row).1, Fqdn := fqdn, Type_ := temp.Type_,
           Content := temp.Content, CreatedOn := temp.CreatedOn,
           UpdatedOn := (env.assigned e.row).2, TID := temp.TID } : DBRecord)
          ∈ (appMain env table).table) := by
  have hmem : e ∈ rowTrace e.row (appMain env table).trace := mem_rowTrace.mpr ⟨he, rfl⟩
  rcases appMain_rowTrace env table e.row with h | ⟨temp, T, hget, _, _, h⟩
  · rw [h] at hmem; simp at hmem
  · rw [h] at hmem
    obtain ⟨h1, rfl, rfl, rfl, rfl⟩ := processRow_exec env e.row temp T e hmem _ _ _ _ _ hc
    refine ⟨temp, hget, h1, rfl, rfl, rfl, rfl, ?_⟩
    intro herr
    rw [appMain_table, List.mem_append]
    right
    unfold insertedRows
    rw [List.mem_filterMap]
    exact ⟨e, he, by rw [hc, herr]⟩

theorem changeLoop_call (env : Env) (i : Nat) (name : String) :
    ∀ (l : List route53.ResourceRecordSet) (k : Nat), ∀ e ∈ (changeLoop env i name k l).1,
      ∃ rs, e.call = .ChangeResourceRecordSets (upsertInput env.zoneId name rs) := by
  intro l
  induction l with
  | nil => intro k e he; simp [changeLoop] at he
  | cons rs rest ih =>
    intro k e he
    unfold changeLoop at he
    split at he
    · split at he
      · simp only [List.mem_singleton] at he
        subst he
        exact ⟨rs, rfl⟩
      · simp only [List.mem_cons] at he
        rcases he with rfl | he
        · exact ⟨rs, rfl⟩
        · exact ih _ e he
    · exact ih _ e he

/-- Every change request of a row renames a record set to the row's bare name. -/
theorem processRow_change (env : Env) (i : Nat) (temp : DBRecord) (T : List DBRecord)
    (e : Entry) (he : e ∈ (processRow env i temp T).trace)
    (input : route53.ChangeResourceRecordSetsInput)
    (hc : e.call = .ChangeResourceRecordSets input) :
    ∃ name rs, bareName temp.Fqdn = some name ∧ input = upsertInput env.zoneId name rs := by
  rcases processRow_cases env i temp T with ⟨c', h⟩ | ⟨c', h⟩ | ⟨_, h⟩ | ⟨name, c', _, h⟩ |
    ⟨name, _, hne, _, h⟩ | ⟨name, err, hb, herr, h⟩ <;>
    rw [h] at he <;>
    simp only [List.mem_cons, List.mem_append, List.mem_singleton, List.not_mem_nil,
      or_false] at he
  · subst he; simp at hc
  · rcases he with rfl | rfl <;> simp at hc
  · rcases he with rfl | rfl <;> simp at hc
  · rcases he with rfl | rfl | rfl <;> simp at hc
  · rcases he with rfl | rfl | rfl <;> simp at hc
  · rcases he with (rfl | rfl | rfl) | he
    · simp at hc
    · simp at hc
    · simp at hc
    · rcases insertAndUpsert_cases env i temp name T with ⟨c, h2⟩ | ⟨c, h2⟩ | ⟨c, h2⟩ | h2 <;>
        rw [h2] at he <;>
        simp only [List.mem_cons, List.mem_append, List.mem_singleton, List.not_mem_nil,
          or_false] at he
      · subst he; simp at hc
      · rcases he with rfl | rfl <;> simp at hc
      · rcases he with rfl | rfl | rfl <;> simp at hc
      · rcases he with (rfl | rfl | rfl) | he
        · simp at hc
        · simp at hc
        · simp at hc
        · obtain ⟨rs, hrs⟩ := changeLoop_call env i name (env.listing i) 0 e he
          rw [hrs] at hc
          simp only [Call.ChangeResourceRecordSets.injEq] at hc
          exact ⟨name, rs, hb, hc.symm⟩

/-- The rows one round of the loop body adds: none, or one row named by the
bare name, which the table did not hold unless it is empty. -/
theorem processRow_inserted (env : Env) (i : Nat) (temp : DBRecord) (T : List DBRecord) :
    insertedRows env (processRow env i temp T).trace = [] ∨
    ∃ name, bareName temp.Fqdn = some name ∧
      (name ∉ T.map (fun r => r.Fqdn) ∨ name = "") ∧
      insertedRows env (processRow env i temp T).trace = [storedRow env i name temp] := by
  have ht := processRow_table env i temp T
  rcases processRow_table_cases env i temp T with ⟨h1, _⟩ | ⟨name, hb, hor, h1⟩
  · left
    rw [h1] at ht
    exact (List.self_eq_append_right.mp ht)
  · right
    rw [h1] at ht
    exact ⟨name, hb, hor, (List.append_cancel_left ht).symm⟩

/-- When no row has an empty bare name, the rows a run adds have pairwise
distinct fqdns and none of them was in the table. -/
theorem rowsLoop_inserted_fresh (env : Env) (rows : List DBRecord) :
    ∀ (j : Nat) (T : List DBRecord), (∀ r ∈ rows, bareName r.Fqdn ≠ some "") →
      ((insertedRows env (rowsLoop env j rows T).trace).map (fun r => r.Fqdn)).Nodup ∧
      ∀ b ∈ (insertedRows env (rowsLoop env j rows T).trace).map (fun r => r.Fqdn),
        b ∉ T.map (fun r => r.Fqdn) := by
  induction rows with
  | nil => intro j T _; simp [rowsLoop_nil, insertedRows]
  | cons temp rest ih =>
    intro j T hne
    have hrow : ((insertedRows env (processRow env j temp T).trace).map
          (fun r => r.Fqdn)).Nodup ∧
        ∀ b ∈ (insertedRows env (processRow env j temp T).trace).map (fun r => r.Fqdn),
          b ∉ T.map (fun r => r.Fqdn) := by
      rcases processRow_inserted env j temp T with h | ⟨name, hb, hor, h⟩ <;> rw [h]
      · simp
      · rcases hor with hnot | hemp
        · refine ⟨by simp, ?_⟩
          intro b hb'
          simp only [List.map_cons, List.map_nil, List.mem_singleton, storedRow] at hb'
          subst hb'
          exact hnot
        · subst hemp
          exact absurd hb (hne temp (by simp))
    rcases rowsLoop_cons env j temp rest T with ⟨_, h⟩ | ⟨_, _, h⟩ | ⟨_, _, h⟩ <;> rw [h]
    · simp [insertedRows]
    · exact hrow
    · obtain ⟨h1, h2⟩ := ih (j + 1) (processRow env j temp T).table
        (fun r hr => hne r (by simp [hr]))
      have ht := processRow_table env j temp T
      simp only [insertedRows_append, List.map_append]
      refine ⟨?_, ?_⟩
      · rw [List.nodup_append]
        refine ⟨hrow.1, h1, ?_⟩
        intro b hb1 hb2
        apply h2 b hb2
        rw [ht, List.map_append, List.mem_append]
        exact Or.inr hb1
      · intro b hb'
        rw [List.mem_append] at hb'
        rcases hb' with hb' | hb'
        · exact hrow.2 b hb'
        · intro hT
          apply h2 b hb'
          rw [ht, List.map_append, List.mem_append]
          exact Or.inl hT

theorem appMain_inserted_fresh (env : Env) (table : List DBRecord)
    (hne : ∀ r ∈ selectLike table likePattern, bareName r.Fqdn ≠ some "") :
    ((insertedRows env (appMain env table).trace).map (fun r => r.Fqdn)).Nodup ∧
    ∀ b ∈ (insertedRows env (appMain env table).trace).map (fun r => r.Fqdn),
      b ∉ table.map (fun r => r.Fqdn) := by
  rcases appMain_cases env table with ⟨c, h⟩ | h <;> rw [h]
  · simp [insertedRows]
  · exact rowsLoop_inserted_fresh env _ 0 table hne

/-- Every row a run adds is named by the bare name of a selected row. -/
theorem appMain_inserted_bare (env : Env) (table : List DBRecord) :
    ∀ r ∈ insertedRows env (appMain env table).trace,
      ∃ temp ∈ selectLike table likePattern, bareName temp.Fqdn = some r.Fqdn := by
  intro r hr
  unfold insertedRows at hr
  rw [List.mem_filterMap] at hr
  obtain ⟨e, he, hre⟩ := hr
  cases hcall : e.call with
  | Exec fqdn type content createdOn tid =>
    obtain ⟨temp, hget, hb, _⟩ :=
      appMain_exec env table e fqdn type content createdOn tid he hcall
    rw [hcall] at hre
    cases herr : e.err with
    | none =>
      rw [herr] at hre
      simp only [Option.some.injEq] at hre
      subst hre
      exact ⟨temp, List.getElem?_mem hget, hb⟩
    | some x => rw [herr] at hre; simp at hre
  | Scan => rw [hcall] at hre; simp at hre
  | Prepare q => rw [hcall] at hre; simp at hre
  | QueryRow n f => rw [hcall] at hre; simp at hre
  | ListResourceRecordSets inp => rw [hcall] at hre; simp at hre
  | ChangeResourceRecordSets inp => rw [hcall] at hre; simp at hre

/-! ## Failures in the loop body -/

/-- If a call of the loop body issued for the row at position `i` fails, the
run returns that error, the failing call is the last call of the run, and no
call is issued for a row at a later position. -/
theorem body_failure_is_returned (env : Env) (table : List DBRecord) (i c : Nat)
    (h : ∃ e ∈ (appMain env table).trace, e.row = i ∧ e.err = some (.failure c)) :
    (appMain env table).result = .error (.failure c) ∧
    (∃ pre e, (appMain env table).trace = pre ++ [e] ∧ e.row = i ∧
      e.err = some (.failure c)) ∧
    ∀ e ∈ (appMain env table).trace, e.row ≤ i := by
  obtain ⟨e, he, hrow, herr⟩ := h
  rcases appMain_cases env table with ⟨c', h'⟩ | h' <;> rw [h'] at he ⊢
  · simp at he
  · obtain ⟨h1, pre, h2⟩ := rowsLoop_failed env _ 0 table e he c herr
    refine ⟨h1, ⟨pre, e, h2, hrow, herr⟩, ?_⟩
    have hs := rowsLoop_sorted env (selectLike table likePattern) 0 table
    rw [h2, List.pairwise_append] at hs
    intro a ha
    rw [h2, List.mem_append, List.mem_singleton] at ha
    rcases ha with ha | rfl
    · have := hs.2.2 a ha e (List.mem_singleton.mpr rfl)
      omega
    · omega

/-- The listing for row 0 of the sample table fails with code 5. -/
theorem body_failure_is_returned_example :
    (appMain (faultAt (.ListResourceRecordSets 0) 5) sampleTable).result
        = .error (.failure 5) ∧
    (∃ pre e, (appMain (faultAt (.ListResourceRecordSets 0) 5) sampleTable).trace
        = pre ++ [e] ∧ e.row = 0 ∧ e.err = some (.failure 5)) ∧
    ∀ e ∈ (appMain (faultAt (.ListResourceRecordSets 0) 5) sampleTable).trace, e.row ≤ 0 :=
  body_failure_is_returned (faultAt (.ListResourceRecordSets 0) 5) sampleTable 0 5
    ⟨⟨0, .ListResourceRecordSets ⟨some "Z1", some "\\052.example.com", some "A"⟩,
      some (.failure 5)⟩, by decide, rfl, rfl⟩


/-! ## The claims -/

/-- C1 (counterexample). The fqdn `\052.foo.\052.bar.com` begins with the
marker, yet its bare name is `foo.` and not the fqdn with the marker removed,
`foo.\052.bar.com`. -/
theorem C1_counterexample :
    "\\052.foo.\\052.bar.com" = marker ++ "foo.\\052.bar.com" ∧
    bareName "\\052.foo.\\052.bar.com" = some "foo." ∧
    bareName "\\052.foo.\\052.bar.com" ≠ some "foo.\\052.bar.com" := by
  decide

/-- C1 (amended). For every fqdn that begins with the marker `\052.`, the bare
name computed by `appMain` is the part of the remainder that precedes the next
occurrence of the marker: it holds no marker, and it is either the whole
remainder or followed in it by the marker. -/
theorem C1_bareName_up_to_next_marker (fqdn rest : String) (h : fqdn = marker ++ rest) :
    ∃ name, bareName fqdn = some name ∧ ¬ marker.data <:+: name.data ∧
      (rest = name ∨ ∃ tail, rest = name ++ marker ++ tail) := by
  subst h
  refine ⟨String.mk (strings.firstSegment rest.data marker.data), bareName_of_marker rest, ?_⟩
  unfold strings.firstSegment
  cases hi : strings.Index rest.data marker.data with
  | none =>
    exact ⟨(strings.Index_eq_none_iff _ _).mp hi, Or.inl rfl⟩
  | some m =>
    refine ⟨strings.Index_take_free marker_ne_nil hi, Or.inr ?_⟩
    obtain ⟨t, ht⟩ := (strings.Index_eq_some hi).1
    refine ⟨String.mk t, ?_⟩
    ext1
    simp only [String.data_append]
    rw [List.append_assoc, ht, List.take_append_drop]

/-- C1 (witness). The amended statement at the fqdn `\052.foo.\052.bar.com`. -/
theorem C1_bareName_up_to_next_marker_witness :
    ∃ name, bareName "\\052.foo.\\052.bar.com" = some name ∧ ¬ marker.data <:+: name.data ∧
      ("foo.\\052.bar.com" = name ∨ ∃ tail, "foo.\\052.bar.com" = name ++ marker ++ tail) :=
  C1_bareName_up_to_next_marker "\\052.foo.\\052.bar.com" "foo.\\052.bar.com" (by decide)

/-- C2. For every name `n` that does not contain the marker `\052.`, the bare
name derived from the fqdn `\052.` followed by `n` is `n`. -/
theorem C2_marker_round_trip (n : String) (h : ¬ marker.data <:+: n.data) :
    bareName (marker ++ n) = some n := by
  rw [bareName_of_marker]
  unfold strings.firstSegment
  rw [(strings.Index_eq_none_iff _ _).mpr h]

/-- C2 (witness). The fqdn `\052.example.com` yields `example.com`. -/
theorem C2_marker_round_trip_witness :
    ¬ marker.data <:+: "example.com".data ∧
      bareName "\\052.example.com" = some "example.com" :=
  ⟨by decide, C2_marker_round_trip "example.com" (by decide)⟩

/-- C4 (counterexample). On a table whose wildcard row is `\052.` the first
run completes without error and inserts a row with the empty name; the second
run finds that empty name, inserts again, and the table grows. -/
theorem C4_counterexample :
    (appMain sampleEnv emptyNameTable).result = .ok ∧
    (appMain sampleEnv (appMain sampleEnv emptyNameTable).table).table
      ≠ (appMain sampleEnv emptyNameTable).table ∧
    (appMain sampleEnv emptyNameTable).table.length = 2 ∧
    (appMain sampleEnv (appMain sampleEnv emptyNameTable).table).table.length = 3 := by
  decide

/-- C4 (amended). If every wildcard row of the initial table has a non-empty
bare name and a first run fetches and processes every selected row without
error, then a second run on the resulting table issues no INSERT and leaves
the table as the first run left it: the initial table followed by the rows
the first run added. Those rows are named by bare names of selected rows,
their fqdns are pairwise distinct and none of them was in the initial table,
so an fqdn the initial table held at most once is held at most once at the
end. -/
theorem C4_second_run_inserts_nothing (env1 env2 : Env) (table : List DBRecord)
    (hne : ∀ r ∈ selectLike table likePattern, bareName r.Fqdn ≠ some "")
    (hcur : ∀ k, env1.fault (.Next k) = none)
    (hok : (appMain env1 table).result = .ok) :
    (appMain env2 (appMain env1 table).table).table = (appMain env1 table).table ∧
    (∀ e ∈ (appMain env2 (appMain env1 table).table).trace, e.call.isInsert = false) ∧
    (appMain env2 (appMain env1 table).table).table
      = table ++ insertedRows env1 (appMain env1 table).trace ∧
    (∀ r ∈ insertedRows env1 (appMain env1 table).trace,
      ∃ temp ∈ selectLike table likePattern, bareName temp.Fqdn = some r.Fqdn) ∧
    ((insertedRows env1 (appMain env1 table).trace).map (fun r => r.Fqdn)).Nodup ∧
    (∀ b ∈ (insertedRows env1 (appMain env1 table).trace).map (fun r => r.Fqdn),
      b ∉ table.map (fun r => r.Fqdn)) ∧
    ∀ b, (table.map (fun r => r.Fqdn)).count b ≤ 1 →
      ((appMain env2 (appMain env1 table).table).table.map (fun r => r.Fqdn)).count b ≤ 1 := by
  have hsel := appMain_selectLike env1 table
  have h1 : appMain env1 table = rowsLoop env1 0 (selectLike table likePattern) table := by
    rcases appMain_cases env1 table with ⟨c, h⟩ | h
    · rw [h] at hok; simp at hok
    · exact h
  have hcov : ∀ r ∈ selectLike table likePattern, ∃ b, bareName r.Fqdn = some b ∧ b ≠ "" ∧
      b ∈ (appMain env1 table).table.map (fun r => r.Fqdn) := by
    intro r hr
    rw [h1] at hok ⊢
    obtain ⟨b, hb, hmem⟩ := rowsLoop_covers env1 hcur _ 0 table hok r hr
    refine ⟨b, hb, ?_, hmem⟩
    rintro rfl
    exact hne r hr hb
  have h2 : (appMain env2 (appMain env1 table).table).table = (appMain env1 table).table ∧
      ∀ e ∈ (appMain env2 (appMain env1 table).table).trace, e.call.isInsert = false := by
    rcases appMain_cases env2 (appMain env1 table).table with ⟨c, h⟩ | h <;> rw [h]
    · simp
    · rw [hsel]
      obtain ⟨ht, htr⟩ := rowsLoop_skip env2 (selectLike table likePattern) 0
        (appMain env1 table).table hcov
      exact ⟨ht, fun e he => (htr e he).1⟩
  have ht1 := appMain_table env1 table
  obtain ⟨hnd, hfresh⟩ := appMain_inserted_fresh env1 table hne
  refine ⟨h2.1, h2.2, h2.1.trans ht1, appMain_inserted_bare env1 table, hnd, hfresh, ?_⟩
  intro b hb
  rw [h2.1, ht1, List.map_append, List.count_append]
  have hadd := List.nodup_iff_count_le_one.mp hnd b
  by_cases hmem : b ∈ (insertedRows env1 (appMain env1 table).trace).map (fun r => r.Fqdn)
  · have := List.count_eq_zero.mpr (hfresh b hmem)
    omega
  · have := List.count_eq_zero.mpr hmem
    omega

/-- C4 (witness). Two runs without faults on a table that holds the same
wildcard name twice. -/
theorem C4_second_run_inserts_nothing_witness :
    (appMain sampleEnv (appMain sampleEnv duplicateTable).table).table
      = (appMain sampleEnv duplicateTable).table ∧
    (∀ e ∈ (appMain sampleEnv (appMain sampleEnv duplicateTable).table).trace,
      e.call.isInsert = false) ∧
    (appMain sampleEnv (appMain sampleEnv duplicateTable).table).table
      = duplicateTable ++ insertedRows sampleEnv (appMain sampleEnv duplicateTable).trace ∧
    (∀ r ∈ insertedRows sampleEnv (appMain sampleEnv duplicateTable).trace,
      ∃ temp ∈ selectLike duplicateTable likePattern, bareName temp.Fqdn = some r.Fqdn) ∧
    ((insertedRows sampleEnv (appMain sampleEnv duplicateTable).trace).map
      (fun r => r.Fqdn)).Nodup ∧
    (∀ b ∈ (insertedRows sampleEnv (appMain sampleEnv duplicateTable).trace).map
        (fun r => r.Fqdn),
      b ∉ duplicateTable.map (fun r => r.Fqdn)) ∧
    ∀ b, (duplicateTable.map (fun r => r.Fqdn)).count b ≤ 1 →
      ((appMain sampleEnv (appMain sampleEnv duplicateTable).table).table.map
        (fun r => r.Fqdn)).count b ≤ 1 :=
  C4_second_run_inserts_nothing sampleEnv sampleEnv duplicateTable (by decide)
    (fun _ => rfl) (by decide)

/-- C5. For the row at position `i` with bare name `b`: the change requests
issued for it are a leading part of the list holding, in listing order, one
request per listed record set whose name without one trailing dot is `*.b` or
`\052.b`, each request a single UPSERT of that record set renamed to `b` with
its other fields as listed; they are the whole list when the listing was
returned and no call for the row failed. -/
theorem C5_upsert_requests (env : Env) (table : List DBRecord) (i : Nat) (temp : DBRecord)
    (b : String) (hrow : (selectLike table likePattern)[i]? = some temp)
    (hb : bareName temp.Fqdn = some b) :
    changeRequests (rowTrace i (appMain env table).trace) <+:
      ((env.listing i).filter (fun rs =>
        decide (strings.TrimSuffix (aws.StringValue rs.Name) "." = "*." ++ b ∨
          strings.TrimSuffix (aws.StringValue rs.Name) "." = "\\052." ++ b))).map
        (fun rs => ⟨env.zoneId, ⟨[⟨some "UPSERT", { rs with Name := some b }⟩]⟩⟩) ∧
    ((∃ e ∈ rowTrace i (appMain env table).trace,
        (∃ input, e.call = .ListResourceRecordSets input) ∧ e.err = none) →
      (∀ e ∈ rowTrace i (appMain env table).trace, e.failed = false) →
      changeRequests (rowTrace i (appMain env table).trace) =
        ((env.listing i).filter (fun rs =>
          decide (strings.TrimSuffix (aws.StringValue rs.Name) "." = "*." ++ b ∨
            strings.TrimSuffix (aws.StringValue rs.Name) "." = "\\052." ++ b))).map
          (fun rs => ⟨env.zoneId, ⟨[⟨some "UPSERT", { rs with Name := some b }⟩]⟩⟩)) := by
  have hf : (fun rs : route53.ResourceRecordSet =>
      decide (strings.TrimSuffix (aws.StringValue rs.Name) "." = "*." ++ b ∨
        strings.TrimSuffix (aws.StringValue rs.Name) "." = "\\052." ++ b))
      = matchesWildcard b := by
    funext rs
    rw [Bool.eq_iff_iff]
    simp [matchesWildcard]
  have hu : (fun rs : route53.ResourceRecordSet =>
      (⟨env.zoneId, ⟨[⟨some "UPSERT", { rs with Name := some b }⟩]⟩⟩ :
        route53.ChangeResourceRecordSetsInput)) = upsertInput env.zoneId b := rfl
  rw [hf, hu]
  rcases appMain_rowTrace env table i with h | ⟨temp', T, hget, _, _, h⟩ <;> rw [h]
  · refine ⟨by simp [changeRequests], ?_⟩
    rintro ⟨e, he, _⟩
    simp at he
  · rw [hrow] at hget
    simp only [Option.some.injEq] at hget
    subst hget
    obtain ⟨h1, h2⟩ := processRow_requests env i temp T b hb
    refine ⟨h1, fun hl hok => h2 hl ?_⟩
    intro e he c hc
    have := hok e he
    simp [Entry.failed, hc] at this

/-- C5 (witness). For the row `\052.example.com` of the sample table the record
sets `\052.example.com.` and `*.example.com.` are upserted under the name
`example.com`, the set `www.example.com.` is left out. -/
theorem C5_upsert_requests_witness :
    changeRequests (rowTrace 0 (appMain sampleEnv sampleTable).trace) =
      [⟨some "Z1", ⟨[⟨some "UPSERT",
          ⟨some "example.com", some "A", some 300, ["1.2.3.4"], none, none⟩⟩]⟩⟩,
       ⟨some "Z1", ⟨[⟨some "UPSERT",
          ⟨some "example.com", some "A", some 60, ["1.2.3.4"], none, none⟩⟩]⟩⟩] :=
  ((C5_upsert_requests sampleEnv sampleTable 0
      ⟨1, "\\052.example.com", 1, "1.2.3.4", 1500000000, some 1500000100, 7⟩ "example.com"
      (by decide) (by decide)).2
    ⟨⟨0, .ListResourceRecordSets ⟨some "Z1", some "\\052.example.com", some "A"⟩, none⟩,
      by decide, ⟨_, rfl⟩, rfl⟩
    (by decide)).trans (by decide)

/-- C6 (the code at the failing input). The sample table has two wildcard
rows and fetching the second one fails in `rows.Next()` with code 1: the run
has issued calls for row 0 only, none of them failed, and it ends with
`return nil` instead of returning the error. -/
theorem C6_cursor_failure_returns_nil :
    (selectLike sampleTable likePattern).length = 2 ∧
    (faultAt (.Next 1) 1).fault (.Next 1) = some 1 ∧
    (appMain (faultAt (.Next 1) 1) sampleTable).result = .ok ∧
    (appMain (faultAt (.Next 1) 1) sampleTable).result ≠ .error (.failure 1) ∧
    ∀ e ∈ (appMain (faultAt (.Next 1) 1) sampleTable).trace,
      e.row = 0 ∧ e.failed = false := by
  decide

/-- C7. Every INSERT a run executes carries the bare name of the source row
at its position and that row's type, content, creation time and tenant, and
nothing else of the source row; when it succeeds the table holds a row with
these five values, whose id and update time are the store's. -/
theorem C7_inserted_row_fields (env : Env) (table : List DBRecord) (e : Entry)
    (fqdn : String) (type : Int) (content : String) (createdOn tid : Int)
    (he : e ∈ (appMain env table).trace)
    (hc : e.call = .Exec fqdn type content createdOn tid) :
    ∃ temp, (selectLike table likePattern)[e.row]? = some temp ∧
      bareName temp.Fqdn = some fqdn ∧ type = temp.Type_ ∧ content = temp.Content ∧
      createdOn = temp.CreatedOn ∧ tid = temp.TID ∧
      (e.err = none →
        ({ ID := (env.assigned e.row).1, Fqdn := fqdn, Type_ := temp.Type_,
           Content := temp.Content, CreatedOn := temp.CreatedOn,
           UpdatedOn := (env.assigned e.row).2, TID := temp.TID } : DBRecord)
          ∈ (appMain env table).table) :=
  appMain_exec env table e fqdn type content createdOn tid he hc

/-- C7 (witness). The INSERT for row 0 of the sample table. -/
theorem C7_inserted_row_fields_witness :
    ∃ temp, (selectLike sampleTable likePattern)[0]? = some temp ∧
      bareName temp.Fqdn = some "example.com" ∧ (1 : Int) = temp.Type_ ∧
      "1.2.3.4" = temp.Content ∧ (1500000000 : Int) = temp.CreatedOn ∧ (7 : Int) = temp.TID ∧
      ((none : Option GoError) = none →
        ({ ID := (sampleEnv.assigned 0).1, Fqdn := "example.com", Type_ := temp.Type_,
           Content := temp.Content, CreatedOn := temp.CreatedOn,
           UpdatedOn := (sampleEnv.assigned 0).2, TID := temp.TID } : DBRecord)
          ∈ (appMain sampleEnv sampleTable).table) :=
  C7_inserted_row_fields sampleEnv sampleTable
    ⟨0, .Exec "example.com" 1 "1.2.3.4" 1500000000 7, none⟩
    "example.com" 1 "1.2.3.4" 1500000000 7 (by decide) rfl

/-- C8. Whether a run ends in success or in an error, the final table is the
initial table followed by the rows of the INSERTs that succeeded during the
run, in order: no row is removed or changed, and rows inserted before a later
failure stay. -/
theorem C8_table_only_grows (env : Env) (table : List DBRecord) :
    (appMain env table).table = table ++ insertedRows env (appMain env table).trace ∧
    table <+: (appMain env table).table := by
  have h := appMain_table env table
  exact ⟨h, by rw [h]; exact List.prefix_append _ _⟩

/-- C8 (witness). A run that fails in the listing for the second wildcard row
keeps the rows inserted for both wildcard rows. -/
theorem C8_table_only_grows_witness :
    (appMain (faultAt (.ListResourceRecordSets 1) 5) sampleTable).result
      = .error (.failure 5) ∧
    (appMain (faultAt (.ListResourceRecordSets 1) 5) sampleTable).table
      = sampleTable ++
        [⟨100, "example.com", 1, "1.2.3.4", 1500000000, none, 7⟩,
         ⟨101, "lb.rancher.cloud", 1, "10.0.0.1", 1500000002, none, 9⟩] :=
  ⟨by decide,
   (C8_table_only_grows (faultAt (.ListResourceRecordSets 1) 5) sampleTable).1.trans
     (by decide)⟩

/-- C9. An fqdn the SELECT pattern returns begins with the marker; for such an
fqdn the split has at least two segments, so index 1 is in range; for an fqdn
without the marker the split has one segment and index 1 is out of range; and
no run of `appMain` ends in the index panic. -/
theorem C9_index_in_range (env : Env) (table : List DBRecord) (fqdn : String) :
    (sqlLike likePattern.data fqdn.data = true ↔ marker.data <+: fqdn.data) ∧
    (marker.data <+: fqdn.data →
      2 ≤ (strings.Split fqdn marker).length ∧ (bareName fqdn).isSome = true) ∧
    (¬ marker.data <:+: fqdn.data →
      (strings.Split fqdn marker).length = 1 ∧ bareName fqdn = none) ∧
    (appMain env table).result ≠ .panic := by
  refine ⟨?_, ?_, ?_, ?_⟩
  · rw [sqlLike_likePattern]; exact List.isPrefixOf_iff_prefix
  · rintro ⟨t, ht⟩
    obtain ⟨tail, h⟩ := strings.genSplit_of_marker marker_ne_nil t
    unfold bareName strings.Split
    rw [← ht, h]
    simp
  · intro h
    unfold bareName
    rw [Split_without_marker fqdn h]
    simp
  · intro hp
    rcases appMain_cases env table with ⟨c', h'⟩ | h' <;> rw [h'] at hp
    · simp at hp
    · obtain ⟨r, hr, hb⟩ := rowsLoop_panic env _ 0 table hp
      obtain ⟨_, rest, hrest⟩ := mem_selectLike hr
      rw [hrest, bareName_of_marker] at hb
      simp at hb

/-- C9 (witness). The fqdn `\052.example.com` has a second segment, the fqdn
`example.com` has none. -/
theorem C9_index_in_range_witness :
    (2 ≤ (strings.Split "\\052.example.com" marker).length ∧
      (bareName "\\052.example.com").isSome = true) ∧
    ((strings.Split "example.com" marker).length = 1 ∧ bareName "example.com" = none) :=
  ⟨(C9_index_in_range sampleEnv sampleTable "\\052.example.com").2.1 (by decide),
   (C9_index_in_range sampleEnv sampleTable "example.com").2.2.1 (by decide)⟩

/-- C10. If a run executes the INSERT for the wildcard row at position `i`,
whose bare name `b` is not empty, and then fails in a call to the provider
for that row, then in any run on the resulting table, also when further rows
were added to it, the row is at position `i` again, its pre-check looks up `b`
and, unless the lookup fails, finds it, no INSERT and no call to the provider
is issued for it, and no change request of the run renames a record set to
`b`. -/
theorem C10_rerun_skips_inserted_row (env1 env2 : Env) (table extra : List DBRecord)
    (i : Nat) (temp : DBRecord) (b : String)
    (hrow : (selectLike table likePattern)[i]? = some temp)
    (hb : bareName temp.Fqdn = some b) (hne : b ≠ "")
    (hins : ∃ e ∈ (appMain env1 table).trace,
      e.row = i ∧ e.call.isExec = true ∧ e.err = none)
    (_hfail : ∃ e ∈ (appMain env1 table).trace,
      e.row = i ∧ e.call.isProvider = true ∧ e.failed = true) :
    (selectLike ((appMain env1 table).table ++ extra) likePattern)[i]? = some temp ∧
    (∀ e ∈ rowTrace i (appMain env2 ((appMain env1 table).table ++ extra)).trace,
      e.call.isInsert = false ∧ e.call.isProvider = false ∧
      ∀ name found, e.call = .QueryRow name found →
        name = b ∧ e.err ≠ some .ErrNoRows ∧ (e.err = none → found = b)) ∧
    ∀ e ∈ (appMain env2 ((appMain env1 table).table ++ extra)).trace,
      ∀ input, e.call = .ChangeResourceRecordSets input →
        ∀ ch ∈ input.ChangeBatch.Changes, ch.ResourceRecordSet.Name ≠ some b := by
  have hsel : (selectLike ((appMain env1 table).table ++ extra) likePattern)[i]? = some temp := by
    rw [selectLike_append, appMain_selectLike]
    have hlt : i < (selectLike table likePattern).length := by
      rcases Nat.lt_or_ge i (selectLike table likePattern).length with h | h
      · exact h
      · rw [List.getElem?_eq_none h] at hrow; simp at hrow
    rw [List.getElem?_append_left hlt]
    exact hrow
  have hmem : b ∈ (appMain env1 table).table.map (fun r => r.Fqdn) := by
    obtain ⟨e, he, hrow', hex, herr⟩ := hins
    cases hcall : e.call with
    | Exec fqdn type content createdOn tid =>
      obtain ⟨temp', hget, hb', _, _, _, _, hin⟩ :=
        appMain_exec env1 table e fqdn type content createdOn tid he hcall
      rw [hrow', hrow] at hget
      simp only [Option.some.injEq] at hget
      subst hget
      rw [hb] at hb'
      simp only [Option.some.injEq] at hb'
      subst hb'
      exact List.mem_map.mpr ⟨_, hin herr, rfl⟩
    | Scan => rw [hcall] at hex; simp [Call.isExec] at hex
    | Prepare q => rw [hcall] at hex; simp [Call.isExec] at hex
    | QueryRow n f => rw [hcall] at hex; simp [Call.isExec] at hex
    | ListResourceRecordSets inp => rw [hcall] at hex; simp [Call.isExec] at hex
    | ChangeResourceRecordSets inp => rw [hcall] at hex; simp [Call.isExec] at hex
  refine ⟨hsel, ?_, ?_⟩
  · rcases appMain_rowTrace env2 ((appMain env1 table).table ++ extra) i with
      h | ⟨temp', T, hget, hT, _, h⟩ <;> rw [h]
    · simp
    · rw [hsel] at hget
      simp only [Option.some.injEq] at hget
      subst hget
      have hmemT : b ∈ T.map (fun r => r.Fqdn) :=
        mem_fqdns_mono ((List.prefix_append _ extra).trans hT) hmem
      exact (processRow_skip env2 i temp T b hb hne hmemT).2
  · intro e he input hcall ch hch hname
    have hmem2 : e ∈ rowTrace e.row (appMain env2 ((appMain env1 table).table ++ extra)).trace :=
      mem_rowTrace.mpr ⟨he, rfl⟩
    rcases appMain_rowTrace env2 ((appMain env1 table).table ++ extra) e.row with
      h | ⟨temp', T, _, hT, _, h⟩ <;> rw [h] at hmem2
    · simp at hmem2
    · obtain ⟨name, rs, hb', hin⟩ := processRow_change env2 e.row temp' T e hmem2 input hcall
      subst hin
      simp only [upsertInput, List.mem_singleton] at hch
      subst hch
      simp only [Option.some.injEq] at hname
      subst hname
      have hmemT : name ∈ T.map (fun r => r.Fqdn) :=
        mem_fqdns_mono ((List.prefix_append _ extra).trans hT) hmem
      have := ((processRow_skip env2 e.row temp' T name hb' hne hmemT).2 e hmem2).2.1
      rw [hcall] at this
      simp [Call.isProvider] at this

/-- C10 (witness). The first run fails in the listing for row 0 of the sample
table, the second run skips the row. -/
theorem C10_rerun_skips_inserted_row_witness :
    (selectLike ((appMain (faultAt (.ListResourceRecordSets 0) 5) sampleTable).table ++ [])
      likePattern)[0]?
      = some ⟨1, "\\052.example.com", 1, "1.2.3.4", 1500000000, some 1500000100, 7⟩ ∧
    (∀ e ∈ rowTrace 0 (appMain sampleEnv
        ((appMain (faultAt (.ListResourceRecordSets 0) 5) sampleTable).table ++ [])).trace,
      e.call.isInsert = false ∧ e.call.isProvider = false ∧
      ∀ name found, e.call = .QueryRow name found →
        name = "example.com" ∧ e.err ≠ some .ErrNoRows ∧
          (e.err = none → found = "example.com")) ∧
    ∀ e ∈ (appMain sampleEnv
        ((appMain (faultAt (.ListResourceRecordSets 0) 5) sampleTable).table ++ [])).trace,
      ∀ input, e.call = .ChangeResourceRecordSets input →
        ∀ ch ∈ input.ChangeBatch.Changes, ch.ResourceRecordSet.Name ≠ some "example.com" :=
  C10_rerun_skips_inserted_row (faultAt (.ListResourceRecordSets 0) 5) sampleEnv sampleTable []
    0 ⟨1, "\\052.example.com", 1, "1.2.3.4", 1500000000, some 1500000100, 7⟩ "example.com"
    (by decide) (by decide) (by decide)
    ⟨⟨0, .Exec "example.com" 1 "1.2.3.4" 1500000000 7, none⟩, by decide, rfl, rfl, rfl⟩
    ⟨⟨0, .ListResourceRecordSets ⟨some "Z1", some "\\052.example.com", some "A"⟩,
      some (.failure 5)⟩, by decide, rfl, rfl, rfl⟩
